import Mathlib

set_option linter.unusedVariables false

/-!
Verification development for the DWARF type-unit DIE cache and navigation
engine of `elftools/dwarf/typeunit.py`.

The Python class `TypeUnit` is embedded shallowly.  Mutable object state
(the parallel cache lists `_dielist` and `_diemap`, the `_parent` and
`_terminator` navigation fields of DIEs) is threaded explicitly through a
`TUState` value; every stateful operation returns the updated state
together with an `Except` value mirroring the exceptions the Python code
can raise.  Python generators are modelled eagerly: an iteration returns
the full list of values the generator would yield (or the first error the
traversal would raise).  Because the low-level byte decoder and the class
`DIE` of `elftools/dwarf/die.py` are external to the file under analysis,
the byte stream is modelled as a partial map from offsets to parse
results, as described in the documentation of `parseDIE` below.
-/

/-- Attribute value as stored in a parsed DIE: the declared form tag and
the decoded value.  The form decoder is an external collaborator of the
core, so the value is modelled as an already-decoded natural number. -/
structure AttrValue where
  form : String
  value : Nat
deriving DecidableEq

/-- Parse result of one DIE position of the byte stream: the tag (none
for a null DIE), the has-children flag, the byte size of the entry, and
the ordered attribute list. -/
structure DieInfo where
  tag : Option String
  has_children : Bool
  size : Nat
  attributes : List (String × AttrValue)
deriving DecidableEq

/-- A debugging-information entry, as produced by the external `DIE`
constructor.  The field `id` models Python object identity: two DIE
objects created by distinct constructor calls are distinct objects even
when all parsed fields agree.  The mutable navigation fields `_parent`
and `_terminator` of the Python object live in `TUState` instead, keyed
by the offset of the DIE (offsets are parsed at most once per unit, so
they identify cache entries). -/
structure DIE where
  id : Nat
  offset : Nat
  tag : Option String
  has_children : Bool
  size : Nat
  attributes : List (String × AttrValue)
deriving DecidableEq

/-- Mirrors `DIE.is_null` of the external die module: a DIE is null when
its tag is absent. -/
def DIE.is_null (d : DIE) : Bool :=
  d.tag.isNone

/-- The exceptions the embedded operations can surface.
`formatError` models the failure of the external DIE parser (the spec
classifies an abbreviation code without declaration and an unknown form
as FormatError); `rangeError` models the failed range assertion of
`get_DIE_from_refaddr` (the spec classifies an offset outside the unit
byte range as RangeError, distinct from FormatError);
`notImplementedError` is the `NotImplementedError` raised literally in
`iter_DIE_children` for an unsupported sibling form; `indexError` and
`keyError` model the corresponding Python exceptions on impossible list
and dict accesses; `attributeNone` models an attribute access on `None`;
`terminatorNone` marks the (unreachable) path of `_iter_DIE_subtree`
where the terminator of a fully iterated DIE would still be `None`;
`outOfFuel` is an artifact of embedding the possibly diverging traversal
loops with a fuel parameter and never occurs with sufficient fuel. -/
inductive Err where
  | formatError (offset : Nat)
  | rangeError (refaddr : Nat) (cuOffset : Nat)
  | notImplementedError (form : String)
  | indexError
  | keyError
  | attributeNone
  | terminatorNone
  | outOfFuel
deriving DecidableEq

/-- The immutable part of a `TypeUnit` object: the header fields and
construction arguments used by the operations under analysis.
`unit_length` is the declared length from the header,
`initial_length_field_size` abstracts
`structs.initial_length_field_size()`, and `stream` is the byte source
together with the external DIE parser (see `parseDIE`).
`supplementary_dwarfinfo` and `suppResolve` model the optional
supplementary debugging-information source consulted by
`_iter_DIE_subtree` for imported units. -/
structure TypeUnit where
  tu_offset : Nat
  tu_die_offset : Nat
  unit_length : Nat
  initial_length_field_size : Nat
  supplementary_dwarfinfo : Bool
  suppResolve : String → Nat → Option DIE
  stream : Nat → Option DieInfo

/-- The mutable state of a `TypeUnit` object: the parallel cache lists
`_dielist` and `_diemap`, a counter supplying fresh object identities,
and the `_parent` and `_terminator` DIE fields, keyed by DIE offset.
The parent and terminator maps are association lists where a later
assignment shadows an earlier one, mirroring Python attribute
assignment. -/
structure TUState where
  dielist : List DIE
  diemap : List Nat
  nextId : Nat
  parentMap : List (Nat × Nat)
  termMap : List (Nat × DIE)
deriving DecidableEq

/-- The state of a freshly constructed TypeUnit: both cache lists are
empty, no parent or terminator is recorded. -/
def TUState.initState : TUState :=
  { dielist := [], diemap := [], nextId := 0, parentMap := [], termMap := [] }

/-- Models `child.set_parent(die)`: records the parent offset for the
child offset. -/
def TUState.setParent (st : TUState) (childOffset parentOffset : Nat) : TUState :=
  { st with parentMap := (childOffset, parentOffset) :: st.parentMap }

/-- Models `die._terminator = child`: records the terminator DIE for the
offset of `die`. -/
def TUState.setTerminator (st : TUState) (dieOffset : Nat) (child : DIE) : TUState :=
  { st with termMap := (dieOffset, child) :: st.termMap }

/-- Behavioral model of Python `list.insert(i, x)`: insert before
position `i`; an index at or beyond the length appends. -/
def listInsert (i : Nat) (x : α) (l : List α) : List α :=
  l.take i ++ x :: l.drop i

/-- Behavioral model of Python list subscription `l[i]` with support for
negative indices: a negative index counts from the end of the list, and
`none` is returned where Python would raise IndexError. -/
def pyIndex (l : List α) (i : Int) : Option α :=
  if 0 ≤ i then l[i.toNat]?
  else if (-i).toNat ≤ l.length then l[l.length - (-i).toNat]? else none

/-- Behavioral model of `bisect.bisect_right` from the Python standard
library on a sorted list: the insertion point to the right of any entry
equal to `x`, which for a sorted list is the number of entries not
exceeding `x`.  The cache invariant of the unit keeps `_diemap` sorted,
which is the documented precondition of `bisect_right`. -/
def bisect_right (l : List Nat) (x : Nat) : Nat :=
  l.countP (fun y => decide (y ≤ x))

/-- Modelled from the spec: construction of a `DIE` object (the class
`DIE` of `elftools/dwarf/die.py` is not under src/).  Per section 4.2 of
the spec, `parse_die` reads the abbreviation code at `offset`, yielding a
null DIE for code 0 and otherwise decoding the declared attributes with
the external form decoder; an unknown form or an abbreviation code
without declaration is a FormatError.  At this abstraction level the
stream directly returns the complete parse result at an offset (`none`
models the FormatError failures), and the indirect-attribute fix-up of
the top DIE is invisible because attribute values are already in decoded
form.  `id` is the fresh object identity for the new DIE. -/
def parseDIE (tu : TypeUnit) (offset : Nat) (id : Nat) : Except Err DIE :=
  match tu.stream offset with
  | none => .error (.formatError offset)
  | some r => .ok { id := id, offset := offset, tag := r.tag,
                    has_children := r.has_children, size := r.size,
                    attributes := r.attributes }

/-- Mirrors the property `cu_offset`, which returns `tu_offset`. -/
def TypeUnit.cu_offset (tu : TypeUnit) : Nat :=
  tu.tu_offset

/-- Mirrors the property `cu_die_offset`, which returns `tu_die_offset`. -/
def TypeUnit.cu_die_offset (tu : TypeUnit) : Nat :=
  tu.tu_die_offset

/-- Mirrors the property `size`: the declared unit length plus the size
of the initial length field. -/
def TypeUnit.size (tu : TypeUnit) : Nat :=
  tu.unit_length + tu.initial_length_field_size

/-- Embeds `TypeUnit.get_top_DIE`: return the cached top DIE when the
cache is nonempty, otherwise parse the DIE at `tu_die_offset`, insert it
at position 0 of both cache lists and return it. -/
def TypeUnit.get_top_DIE (tu : TypeUnit) (st : TUState) : TUState × Except Err DIE :=
  if st.diemap.isEmpty then
    match parseDIE tu tu.tu_die_offset st.nextId with
    | .error e => (st, .error e)
    | .ok top =>
      ({ st with dielist := listInsert 0 top st.dielist,
                 diemap := listInsert 0 tu.tu_die_offset st.diemap,
                 nextId := st.nextId + 1 }, .ok top)
  else
    match st.dielist.head? with
    | some d => (st, .ok d)
    | none => (st, .error .indexError)

/-- Embeds `TypeUnit.has_top_DIE`: reports whether the top DIE is cached,
without parsing on demand. -/
def TypeUnit.has_top_DIE (tu : TypeUnit) (st : TUState) : Bool :=
  !st.diemap.isEmpty

/-- Embeds `TypeUnit._get_cached_DIE`: ensure the top DIE is cached, then
locate `offset` with `bisect_right` in `_diemap`; on an exact match at
position `i - 1` return the cached DIE, otherwise parse a new DIE and
insert it at position `i` of both parallel lists.  The Python expression
`self._diemap[i - 1]` is subscription with a possibly negative index, so
it is modelled with `pyIndex` on `(i : Int) - 1`. -/
def TypeUnit._get_cached_DIE (tu : TypeUnit) (st : TUState) (offset : Nat) :
    TUState × Except Err DIE :=
  match tu.get_top_DIE st with
  | (st1, .error e) => (st1, .error e)
  | (st1, .ok _top) =>
    let i := bisect_right st1.diemap offset
    match pyIndex st1.diemap ((i : Int) - 1) with
    | none => (st1, .error .indexError)
    | some m =>
      if offset = m then
        match pyIndex st1.dielist ((i : Int) - 1) with
        | some d => (st1, .ok d)
        | none => (st1, .error .indexError)
      else
        match parseDIE tu offset st1.nextId with
        | .error e => (st1, .error e)
        | .ok d =>
          ({ st1 with dielist := listInsert i d st1.dielist,
                      diemap := listInsert i offset st1.diemap,
                      nextId := st1.nextId + 1 }, .ok d)

/-- The sibling reference forms recognized by `iter_DIE_children` as
relative to the unit. -/
def sibRefForms : List String :=
  ["DW_FORM_ref1", "DW_FORM_ref2", "DW_FORM_ref4", "DW_FORM_ref8",
   "DW_FORM_ref", "DW_FORM_ref_udata"]

/-- Embeds the loop of `TypeUnit.iter_DIE_children`, with the yielded
children collected in `acc` (in reverse) and the loop cursor
`cur_offset` passed explicitly.  Each loop iteration and each recursive
drain consumes one unit of fuel; `fuel` is an embedding artifact
bounding the number of steps of the possibly diverging `while True`
loop.  The recursive drain of a child without sibling attribute calls
the child iteration directly with the children of `child`, which is what
`self.iter_DIE_children(child)` amounts to since `child.has_children`
holds on that path. -/
def TypeUnit.iterChildrenAux (tu : TypeUnit) (die : DIE) :
    Nat → Nat → TUState → List DIE → TUState × Except Err (List DIE)
  | 0, _, st, _ => (st, .error .outOfFuel)
  | fuel + 1, cursor, st, acc =>
    match tu._get_cached_DIE st cursor with
    | (st1, .error e) => (st1, .error e)
    | (st1, .ok child) =>
      let st2 := st1.setParent child.offset die.offset
      if child.is_null then
        (st2.setTerminator die.offset child, .ok acc.reverse)
      else if !child.has_children then
        tu.iterChildrenAux die fuel (cursor + child.size) st2 (child :: acc)
      else
        match child.attributes.lookup "DW_AT_sibling" with
        | some sibling =>
          if sibling.form ∈ sibRefForms then
            tu.iterChildrenAux die fuel (sibling.value + tu.tu_offset) st2 (child :: acc)
          else if sibling.form = "DW_FORM_ref_addr" then
            tu.iterChildrenAux die fuel sibling.value st2 (child :: acc)
          else
            (st2, .error (.notImplementedError sibling.form))
        | none =>
          match st2.termMap.lookup child.offset with
          | some t => tu.iterChildrenAux die fuel (t.offset + t.size) st2 (child :: acc)
          | none =>
            match tu.iterChildrenAux child fuel (child.offset + child.size) st2 [] with
            | (st3, .error e) => (st3, .error e)
            | (st3, .ok _) =>
              match st3.termMap.lookup child.offset with
              | some t => tu.iterChildrenAux die fuel (t.offset + t.size) st3 (child :: acc)
              | none => (st3, .error .attributeNone)

/-- Embeds `TypeUnit.iter_DIE_children`: nothing is yielded for a DIE
without children; otherwise the loop starts at the cursor
`die.offset + die.size`. -/
def TypeUnit.iter_DIE_children (tu : TypeUnit) (die : DIE) (st : TUState)
    (fuel : Nat) : TUState × Except Err (List DIE) :=
  if die.has_children then
    tu.iterChildrenAux die fuel (die.offset + die.size) st []
  else
    (st, .ok [])

/-- Embeds `TypeUnit.get_DIE_from_refaddr`.  The range assertion is the
call `dwarf_assert(...)`; the helper `dwarf_assert` of
`elftools/common/utils.py` is not under src/ and is modelled from the
spec, which surfaces a reference escaping the declared byte range of the
unit as the RangeError condition, distinct from FormatError, with the
message naming the failing offset and the unit. -/
def TypeUnit.get_DIE_from_refaddr (tu : TypeUnit) (st : TUState) (refaddr : Nat) :
    TUState × Except Err DIE :=
  if tu.cu_die_offset ≤ refaddr ∧ refaddr < tu.cu_offset + tu.size then
    tu._get_cached_DIE st refaddr
  else
    (st, .error (.rangeError refaddr tu.cu_offset))

/-- Modelled from the spec: `die.get_DIE_from_attribute("DW_AT_import")`
(the class `DIE` of `elftools/dwarf/die.py` is not under src/).  Per
section 4.6 of the spec, an imported-unit entry is replaced by resolving
its import attribute through the supplementary debugging-information
source, which is an external collaborator and is modelled by the oracle
`suppResolve` applied to the form and value of the attribute.  A missing
attribute is the Python KeyError of the dict subscription. -/
def TypeUnit.getDIEFromImport (tu : TypeUnit) (die : DIE) : Except Err DIE :=
  match die.attributes.lookup "DW_AT_import" with
  | none => .error .keyError
  | some a =>
    match tu.suppResolve a.form a.value with
    | some d => .ok d
    | none => .error (.formatError a.value)

/-- Runs one subtree enumeration per DIE of a list, threading the state
and concatenating the outputs; the first error aborts the walk.  This is
the eager rendering of the `for c in die.iter_children()` loop body of
`_iter_DIE_subtree`. -/
def runForest (step : DIE → TUState → TUState × Except Err (List DIE)) :
    List DIE → TUState → TUState × Except Err (List DIE)
  | [], st => (st, .ok [])
  | c :: cs, st =>
    match step c st with
    | (st1, .error e) => (st1, .error e)
    | (st1, .ok l1) =>
      match runForest step cs st1 with
      | (st2, .error e) => (st2, .error e)
      | (st2, .ok l2) => (st2, .ok (l1 ++ l2))

/-- Embeds `TypeUnit._iter_DIE_subtree`: substitute an imported unit when
a supplementary source is configured, yield the DIE, then the subtrees of
its children in order, then the recorded terminator.  The terminator
read models `yield die._terminator`; the `terminatorNone` arm is the
(unreachable, since a completed child iteration always records the
terminator) case where Python would yield `None`. -/
def TypeUnit._iter_DIE_subtree (tu : TypeUnit) :
    Nat → DIE → TUState → TUState × Except Err (List DIE)
  | 0, _, st => (st, .error .outOfFuel)
  | fuel + 1, die, st =>
    match (if die.tag = some "DW_TAG_imported_unit" ∧ tu.supplementary_dwarfinfo then
             tu.getDIEFromImport die
           else .ok die) with
    | .error e => (st, .error e)
    | .ok d =>
      if d.has_children then
        match tu.iter_DIE_children d st fuel with
        | (st1, .error e) => (st1, .error e)
        | (st1, .ok cs) =>
          match runForest (fun c s => tu._iter_DIE_subtree fuel c s) cs st1 with
          | (st2, .error e) => (st2, .error e)
          | (st2, .ok rest) =>
            match st2.termMap.lookup d.offset with
            | some t => (st2, .ok (d :: (rest ++ [t])))
            | none => (st2, .error .terminatorNone)
      else
        (st, .ok [d])

/-- Embeds `TypeUnit.iter_DIEs`: the subtree enumeration of the top
DIE. -/
def TypeUnit.iter_DIEs (tu : TypeUnit) (st : TUState) (fuel : Nat) :
    TUState × Except Err (List DIE) :=
  match tu.get_top_DIE st with
  | (st1, .error e) => (st1, .error e)
  | (st1, .ok top) => tu._iter_DIE_subtree fuel top st1

/-- Extracts the yielded list of a successful run; `none` on an error. -/
def okList (r : TUState × Except Err (List DIE)) : Option (List DIE) :=
  match r.2 with
  | .ok l => some l
  | .error _ => none

/-- Extracts the resulting DIE of a successful lookup; `none` on an
error. -/
def okDIE (r : TUState × Except Err DIE) : Option DIE :=
  match r.2 with
  | .ok d => some d
  | .error _ => none

/-- Extracts the error of a failed run. -/
def errDIE (r : TUState × Except Err DIE) : Option Err :=
  match r.2 with
  | .ok _ => none
  | .error e => some e


/-- Short form for the DIE a fresh parse at `off` produces from the parse
record `r` with identity `id`. -/
def mkDIE (r : DieInfo) (id off : Nat) : DIE :=
  { id := id, offset := off, tag := r.tag, has_children := r.has_children,
    size := r.size, attributes := r.attributes }

/-- The cache invariant of a unit: `_dielist` and `_diemap` are parallel
(the map holds exactly the offsets of the listed DIEs, in order), the
offsets are strictly ascending, and a nonempty cache starts with the top
DIE offset at position 0 (which is then also the minimum, by
sortedness). -/
def CacheInv (tu : TypeUnit) (st : TUState) : Prop :=
  st.dielist.map DIE.offset = st.diemap ∧
  List.Pairwise (· < ·) st.diemap ∧
  (st.diemap = [] ∨ st.diemap.head? = some tu.tu_die_offset)

theorem listInsert_zero (x : α) (l : List α) : listInsert 0 x l = x :: l := by
  simp [listInsert]

theorem map_listInsert (f : α → β) (i : Nat) (x : α) (l : List α) :
    (listInsert i x l).map f = listInsert i (f x) (l.map f) := by
  simp [listInsert, List.map_take, List.map_drop]

theorem bisect_le_length (l : List Nat) (x : Nat) : bisect_right l x ≤ l.length := by
  simpa [bisect_right] using List.countP_le_length _

theorem bisect_cons_le {m x : Nat} (t : List Nat) (h : m ≤ x) :
    bisect_right (m :: t) x = bisect_right t x + 1 := by
  simp [bisect_right, List.countP_cons, h]

theorem bisect_cons_gt {m x : Nat} (t : List Nat) (h : x < m) :
    bisect_right (m :: t) x = bisect_right t x := by
  simp [bisect_right, List.countP_cons, Nat.not_le.mpr h]

theorem bisect_eq_zero_of_all_gt {l : List Nat} {x : Nat}
    (h : ∀ a ∈ l, x < a) : bisect_right l x = 0 := by
  simp only [bisect_right, List.countP_eq_zero]
  intro a ha
  simpa using Nat.not_le.mpr (h a ha)

/-- On a strictly sorted list, a present offset is found exactly at the
position before the bisect insertion point. -/
theorem bisect_hit {l : List Nat} {o : Nat}
    (hsort : List.Pairwise (· < ·) l) (hmem : o ∈ l) :
    1 ≤ bisect_right l o ∧ l[bisect_right l o - 1]? = some o := by
  induction l with
  | nil => cases hmem
  | cons m t ih =>
    rcases List.pairwise_cons.mp hsort with ⟨hm, hst⟩
    rcases List.mem_cons.mp hmem with h | h
    · subst h
      have hz : bisect_right t o = 0 := bisect_eq_zero_of_all_gt hm
      rw [bisect_cons_le t le_rfl, hz]
      exact ⟨by omega, by simp⟩
    · have hlt : m < o := hm o h
      rcases ih hst h with ⟨h1, h2⟩
      rw [bisect_cons_le t (Nat.le_of_lt hlt)]
      refine ⟨by omega, ?_⟩
      have heq : bisect_right t o + 1 - 1 = (bisect_right t o - 1) + 1 := by omega
      rw [heq, List.getElem?_cons_succ, h2]

/-- Every entry of the prefix left of the bisect insertion point is at
most the probe. -/
theorem bisect_take_le {l : List Nat} {o : Nat}
    (hsort : List.Pairwise (· < ·) l) :
    ∀ a ∈ l.take (bisect_right l o), a ≤ o := by
  induction l with
  | nil => simp
  | cons m t ih =>
    rcases List.pairwise_cons.mp hsort with ⟨hm, hst⟩
    by_cases hmo : m ≤ o
    · rw [bisect_cons_le t hmo]
      intro a ha
      rw [List.take_succ_cons] at ha
      rcases List.mem_cons.mp ha with h | h
      · exact h ▸ hmo
      · exact ih hst a h
    · rw [bisect_cons_gt t (Nat.not_le.mp hmo)]
      have hz : bisect_right t o = 0 :=
        bisect_eq_zero_of_all_gt
          (fun a ha => Nat.lt_trans (Nat.not_le.mp hmo) (hm a ha))
      rw [hz]
      simp

/-- Every entry of the suffix right of the bisect insertion point is
greater than the probe. -/
theorem bisect_drop_gt {l : List Nat} {o : Nat}
    (hsort : List.Pairwise (· < ·) l) :
    ∀ b ∈ l.drop (bisect_right l o), o < b := by
  induction l with
  | nil => simp
  | cons m t ih =>
    rcases List.pairwise_cons.mp hsort with ⟨hm, hst⟩
    by_cases hmo : m ≤ o
    · rw [bisect_cons_le t hmo, List.drop_succ_cons]
      exact ih hst
    · rw [bisect_cons_gt t (Nat.not_le.mp hmo)]
      have hz : bisect_right t o = 0 :=
        bisect_eq_zero_of_all_gt
          (fun a ha => Nat.lt_trans (Nat.not_le.mp hmo) (hm a ha))
      rw [hz, List.drop_zero]
      intro b hb
      rcases List.mem_cons.mp hb with h | h
      · exact h ▸ Nat.not_le.mp hmo
      · exact Nat.lt_trans (Nat.not_le.mp hmo) (hm b h)

/-- Inserting a fresh offset at the bisect insertion point keeps the
offset list strictly sorted. -/
theorem bisect_insert_sorted {l : List Nat} {o : Nat}
    (hsort : List.Pairwise (· < ·) l) (hnm : o ∉ l) :
    List.Pairwise (· < ·) (listInsert (bisect_right l o) o l) := by
  unfold listInsert
  rw [List.pairwise_append]
  refine ⟨hsort.sublist (List.take_sublist _ _), ?_, ?_⟩
  · rw [List.pairwise_cons]
    exact ⟨bisect_drop_gt hsort, hsort.sublist (List.drop_sublist _ _)⟩
  · intro a ha b hb
    have ha1 : a ≤ o := bisect_take_le hsort a ha
    have ha2 : a ≠ o := by
      intro h
      exact hnm (h ▸ List.mem_of_mem_take ha)
    rcases List.mem_cons.mp hb with h | h
    · omega
    · have := bisect_drop_gt hsort b h
      omega

theorem get_top_warm (tu : TypeUnit) (st : TUState) (d : DIE)
    (hd : st.dielist.head? = some d) (hne : st.diemap ≠ []) :
    tu.get_top_DIE st = (st, .ok d) := by
  have hemp : st.diemap.isEmpty = false := by
    cases h : st.diemap with
    | nil => exact absurd h hne
    | cons a as => rfl
  simp [TypeUnit.get_top_DIE, hemp, hd]

theorem get_top_warm_inv (tu : TypeUnit) (st : TUState)
    (hmap : st.dielist.map DIE.offset = st.diemap) (hne : st.diemap ≠ []) :
    ∃ d, st.dielist.head? = some d ∧ tu.get_top_DIE st = (st, .ok d) := by
  cases hl : st.dielist with
  | nil =>
    exfalso
    apply hne
    rw [← hmap, hl]
    rfl
  | cons d ds =>
    refine ⟨d, by simp [hl], get_top_warm tu st d (by simp [hl]) hne⟩

theorem get_top_cold (tu : TypeUnit) (st : TUState) (r : DieInfo)
    (he : st.diemap = []) (hs : tu.stream tu.tu_die_offset = some r) :
    tu.get_top_DIE st =
      ({ st with dielist := mkDIE r st.nextId tu.tu_die_offset :: st.dielist,
                 diemap := tu.tu_die_offset :: st.diemap,
                 nextId := st.nextId + 1 },
       .ok (mkDIE r st.nextId tu.tu_die_offset)) := by
  simp [TypeUnit.get_top_DIE, he, parseDIE, hs, listInsert_zero, mkDIE]

theorem get_top_cold_fail (tu : TypeUnit) (st : TUState)
    (he : st.diemap = []) (hs : tu.stream tu.tu_die_offset = none) :
    tu.get_top_DIE st = (st, .error (.formatError tu.tu_die_offset)) := by
  simp [TypeUnit.get_top_DIE, he, parseDIE, hs]

theorem get_top_preserves_inv (tu : TypeUnit) (st : TUState)
    (h : CacheInv tu st) : CacheInv tu (tu.get_top_DIE st).1 := by
  obtain ⟨hmap, hsort, hhead⟩ := h
  by_cases hne : st.diemap = []
  · have hdl : st.dielist = [] := by
      cases hl : st.dielist with
      | nil => rfl
      | cons a as =>
        rw [hl] at hmap
        rw [hne] at hmap
        simp at hmap
    cases hs : tu.stream tu.tu_die_offset with
    | none => rw [get_top_cold_fail tu st hne hs]; exact ⟨hmap, hsort, Or.inl hne⟩
    | some r =>
      rw [get_top_cold tu st r hne hs]
      refine ⟨?_, ?_, Or.inr ?_⟩
      · simp [hne, hdl, mkDIE]
      · rw [hne]
        simp
      · simp
  · obtain ⟨d, hd, heq⟩ := get_top_warm_inv tu st hmap hne
    rw [heq]
    exact ⟨hmap, hsort, hhead⟩

theorem pyIndex_of_pos (l : List α) (i : Nat) (h : 1 ≤ i) :
    pyIndex l ((i : Int) - 1) = l[i - 1]? := by
  unfold pyIndex
  rw [if_pos (by omega)]
  have heq : ((i : Int) - 1).toNat = i - 1 := by omega
  rw [heq]

theorem pyIndex_neg_one (l : List α) (h : 1 ≤ l.length) :
    pyIndex l ((0 : Int) - 1) = l[l.length - 1]? := by
  unfold pyIndex
  rw [if_neg (by omega)]
  rw [if_pos (by omega : ((-((0 : Int) - 1)).toNat ≤ l.length))]
  have heq : (-((0 : Int) - 1)).toNat = 1 := by omega
  rw [heq]

/-- The probe of the Python negative-index-capable subscription
`_diemap[i - 1]` always lands on some cached offset once the cache is
nonempty. -/
theorem pyIndex_bisect_some (l : List Nat) (o : Nat) (hne : l ≠ []) :
    ∃ m, pyIndex l ((bisect_right l o : Int) - 1) = some m ∧ m ∈ l := by
  have hlen : 1 ≤ l.length := List.length_pos.mpr hne
  rcases Nat.eq_zero_or_pos (bisect_right l o) with h0 | h1
  · rw [h0, Nat.cast_zero]
    rw [pyIndex_neg_one l hlen]
    have hk : l.length - 1 < l.length := by omega
    exact ⟨l[l.length - 1], List.getElem?_eq_getElem hk, List.getElem_mem hk⟩
  · rw [pyIndex_of_pos l _ h1]
    have hk : bisect_right l o - 1 < l.length := by
      have := bisect_le_length l o
      omega
    exact ⟨l[bisect_right l o - 1], List.getElem?_eq_getElem hk, List.getElem_mem hk⟩

/-- A cached offset is returned as the cached DIE object, with no change
to the state: the parse-once guarantee of the cache. -/
theorem fetch_cached (tu : TypeUnit) (st : TUState) (o : Nat)
    (hmap : st.dielist.map DIE.offset = st.diemap)
    (hsort : List.Pairwise (· < ·) st.diemap)
    (hmem : o ∈ st.diemap) :
    ∃ (k : Nat) (d : DIE), st.diemap[k]? = some o ∧ st.dielist[k]? = some d ∧
      d.offset = o ∧ tu._get_cached_DIE st o = (st, .ok d) := by
  have hne : st.diemap ≠ [] := List.ne_nil_of_mem hmem
  obtain ⟨hd, hdh, htop⟩ := get_top_warm_inv tu st hmap hne
  obtain ⟨h1, h2⟩ := bisect_hit hsort hmem
  have hlen : st.dielist.length = st.diemap.length := by
    rw [← hmap]
    simp
  have hklt : bisect_right st.diemap o - 1 < st.diemap.length :=
    (List.getElem?_eq_some.mp h2).1
  obtain ⟨d, hdget⟩ : ∃ d, st.dielist[bisect_right st.diemap o - 1]? = some d := by
    have : bisect_right st.diemap o - 1 < st.dielist.length := by omega
    exact ⟨st.dielist[bisect_right st.diemap o - 1], List.getElem?_eq_getElem this⟩
  have hoff : d.offset = o := by
    have hmg : (st.dielist.map DIE.offset)[bisect_right st.diemap o - 1]? = some o := by
      rw [hmap]
      exact h2
    rw [List.getElem?_map, hdget] at hmg
    simpa using hmg
  refine ⟨bisect_right st.diemap o - 1, d, h2, hdget, hoff, ?_⟩
  simp only [TypeUnit._get_cached_DIE, htop]
  simp [pyIndex_of_pos st.diemap _ h1, pyIndex_of_pos st.dielist _ h1, h2, hdget]

/-- The parallel-and-sorted part of the cache invariant, which holds for
every reachable state regardless of the probed offsets. -/
def CacheSorted (st : TUState) : Prop :=
  st.dielist.map DIE.offset = st.diemap ∧ List.Pairwise (· < ·) st.diemap

theorem pyIndex_some_of_le (l : List α) (i : Nat) (hle : i ≤ l.length)
    (hne : l ≠ []) : ∃ x, pyIndex l ((i : Int) - 1) = some x := by
  rcases Nat.eq_zero_or_pos i with h0 | h1
  · subst h0
    rw [Nat.cast_zero, pyIndex_neg_one l (List.length_pos.mpr hne)]
    have hk : l.length - 1 < l.length := by
      have := List.length_pos.mpr hne
      omega
    exact ⟨_, List.getElem?_eq_getElem hk⟩
  · rw [pyIndex_of_pos l i h1]
    have hk : i - 1 < l.length := by omega
    exact ⟨_, List.getElem?_eq_getElem hk⟩

/-- A fresh offset is parsed exactly once and inserted at the bisect
insertion point of both parallel cache lists; the freshly constructed
DIE is returned. -/
theorem fetch_new (tu : TypeUnit) (st : TUState) (o : Nat) (r : DieInfo)
    (hmap : st.dielist.map DIE.offset = st.diemap)
    (hne : st.diemap ≠ []) (hnm : o ∉ st.diemap)
    (hs : tu.stream o = some r) :
    tu._get_cached_DIE st o =
      ({ st with
          dielist := listInsert (bisect_right st.diemap o) (mkDIE r st.nextId o) st.dielist,
          diemap := listInsert (bisect_right st.diemap o) o st.diemap,
          nextId := st.nextId + 1 }, .ok (mkDIE r st.nextId o)) := by
  obtain ⟨hd, hdh, htop⟩ := get_top_warm_inv tu st hmap hne
  obtain ⟨m, hm, hmmem⟩ := pyIndex_bisect_some st.diemap o hne
  have hmo : ¬ (o = m) := fun h => hnm (h ▸ hmmem)
  simp only [TypeUnit._get_cached_DIE, htop]
  simp [hm, hmo, parseDIE, hs, mkDIE]

/-- A lookup of an uncached offset where the stream has no parse leaves
the state untouched and surfaces the parse failure. -/
theorem fetch_fail (tu : TypeUnit) (st : TUState) (o : Nat)
    (hmap : st.dielist.map DIE.offset = st.diemap)
    (hne : st.diemap ≠ []) (hnm : o ∉ st.diemap)
    (hs : tu.stream o = none) :
    tu._get_cached_DIE st o = (st, .error (.formatError o)) := by
  obtain ⟨hd, hdh, htop⟩ := get_top_warm_inv tu st hmap hne
  obtain ⟨m, hm, hmmem⟩ := pyIndex_bisect_some st.diemap o hne
  have hmo : ¬ (o = m) := fun h => hnm (h ▸ hmmem)
  simp only [TypeUnit._get_cached_DIE, htop]
  simp [hm, hmo, parseDIE, hs]

/-- With the top DIE already cached, a failing cache lookup leaves the
state exactly as it was, and the error is the parse failure at the
probed offset. -/
theorem fetch_err_state (tu : TypeUnit) (st : TUState) (o : Nat)
    (st' : TUState) (e : Err)
    (hmap : st.dielist.map DIE.offset = st.diemap)
    (hsort : List.Pairwise (· < ·) st.diemap)
    (hne : st.diemap ≠ [])
    (h : tu._get_cached_DIE st o = (st', .error e)) :
    st' = st ∧ e = .formatError o ∧ tu.stream o = none := by
  by_cases hmem : o ∈ st.diemap
  · obtain ⟨k, d, _, _, _, heq⟩ := fetch_cached tu st o hmap hsort hmem
    rw [heq] at h
    simp at h
  · cases hs : tu.stream o with
    | none =>
      rw [fetch_fail tu st o hmap hne hmem hs] at h
      obtain ⟨h1, h2⟩ := Prod.mk.injEq .. ▸ h
      exact ⟨h1.symm, by simpa using h2.symm, rfl⟩
    | some r =>
      rw [fetch_new tu st o r hmap hne hmem hs] at h
      simp at h

/-- Warming a cold cache: once the top DIE parse succeeds, the lookup
proceeds exactly as it would from the warmed state (the embedded
`_get_cached_DIE` recomputes `get_top_DIE`, which is then a no-op). -/
theorem fetch_cold_unfold (tu : TypeUnit) (st : TUState) (o : Nat) (r : DieInfo)
    (he : st.diemap = []) (hs : tu.stream tu.tu_die_offset = some r) :
    tu._get_cached_DIE st o =
      tu._get_cached_DIE
        { st with dielist := mkDIE r st.nextId tu.tu_die_offset :: st.dielist,
                  diemap := tu.tu_die_offset :: st.diemap,
                  nextId := st.nextId + 1 } o := by
  have h1 := get_top_cold tu st r he hs
  have h2 := get_top_warm tu
      { st with dielist := mkDIE r st.nextId tu.tu_die_offset :: st.dielist,
                diemap := tu.tu_die_offset :: st.diemap,
                nextId := st.nextId + 1 }
      (mkDIE r st.nextId tu.tu_die_offset) (by simp) (by simp)
  simp only [TypeUnit._get_cached_DIE, h1, h2]

/-- A failing lookup on a cold cache whose top DIE parse also fails
leaves the state untouched. -/
theorem fetch_cold_fail (tu : TypeUnit) (st : TUState) (o : Nat)
    (he : st.diemap = []) (hs : tu.stream tu.tu_die_offset = none) :
    tu._get_cached_DIE st o = (st, .error (.formatError tu.tu_die_offset)) := by
  simp only [TypeUnit._get_cached_DIE, get_top_cold_fail tu st he hs]

theorem listInsert_head_of_pos (x : α) (l : List α) (i : Nat)
    (h1 : 1 ≤ i) (hne : l ≠ []) :
    (listInsert i x l).head? = l.head? := by
  cases l with
  | nil => exact absurd rfl hne
  | cons a as =>
    unfold listInsert
    cases i with
    | zero => omega
    | succ n => simp [List.take_succ_cons]

theorem bisect_pos_of_head_le {l : List Nat} {m o : Nat}
    (hd : l.head? = some m) (h : m ≤ o) : 1 ≤ bisect_right l o := by
  cases l with
  | nil => simp at hd
  | cons a t =>
    obtain rfl : a = m := by simpa using hd
    rw [bisect_cons_le t h]
    omega

/-- Every lookup preserves the parallel-and-sorted cache structure,
whatever the probed offset and whatever the outcome. -/
theorem get_cached_preserves_sorted_warm (tu : TypeUnit) (st : TUState) (o : Nat)
    (h : CacheSorted st) (hne : st.diemap ≠ []) :
    CacheSorted (tu._get_cached_DIE st o).1 := by
  obtain ⟨hmap, hsort⟩ := h
  by_cases hmem : o ∈ st.diemap
  · obtain ⟨k, d, _, _, _, heq⟩ := fetch_cached tu st o hmap hsort hmem
    rw [heq]
    exact ⟨hmap, hsort⟩
  · cases hs : tu.stream o with
    | none =>
      rw [fetch_fail tu st o hmap hne hmem hs]
      exact ⟨hmap, hsort⟩
    | some r =>
      rw [fetch_new tu st o r hmap hne hmem hs]
      constructor
      · show (listInsert (bisect_right st.diemap o) (mkDIE r st.nextId o) st.dielist).map DIE.offset
            = listInsert (bisect_right st.diemap o) o st.diemap
        rw [map_listInsert, hmap]
        rfl
      · exact bisect_insert_sorted hsort hmem

theorem get_cached_preserves_sorted (tu : TypeUnit) (st : TUState) (o : Nat)
    (h : CacheSorted st) : CacheSorted (tu._get_cached_DIE st o).1 := by
  obtain ⟨hmap, hsort⟩ := h
  by_cases hne : st.diemap = []
  · have hdl : st.dielist = [] := by
      cases hl : st.dielist with
      | nil => rfl
      | cons a as =>
        rw [hl, hne] at hmap
        simp at hmap
    cases hs : tu.stream tu.tu_die_offset with
    | none =>
      rw [fetch_cold_fail tu st o hne hs]
      exact ⟨hmap, hsort⟩
    | some r =>
      rw [fetch_cold_unfold tu st o r hne hs]
      apply get_cached_preserves_sorted_warm
      · constructor
        · simp [hdl, hne, mkDIE]
        · rw [hne]
          simp
      · simp
  · exact get_cached_preserves_sorted_warm tu st o ⟨hmap, hsort⟩ hne

/-- For probes at or beyond the top DIE offset, the full cache invariant
is preserved: the insertion point is then at least 1 and the top DIE is
never displaced from position 0. -/
theorem get_cached_preserves_inv_warm (tu : TypeUnit) (st : TUState) (o : Nat)
    (h : CacheInv tu st) (hge : tu.tu_die_offset ≤ o) (hne : st.diemap ≠ []) :
    CacheInv tu (tu._get_cached_DIE st o).1 := by
  obtain ⟨hmap, hsort, hhead⟩ := h
  by_cases hmem : o ∈ st.diemap
  · obtain ⟨k, d, _, _, _, heq⟩ := fetch_cached tu st o hmap hsort hmem
    rw [heq]
    exact ⟨hmap, hsort, hhead⟩
  · cases hs : tu.stream o with
    | none =>
      rw [fetch_fail tu st o hmap hne hmem hs]
      exact ⟨hmap, hsort, hhead⟩
    | some r =>
      rw [fetch_new tu st o r hmap hne hmem hs]
      have hhd : st.diemap.head? = some tu.tu_die_offset := by
        rcases hhead with h | h
        · exact absurd h hne
        · exact h
      have hpos : 1 ≤ bisect_right st.diemap o := bisect_pos_of_head_le hhd hge
      refine ⟨?_, bisect_insert_sorted hsort hmem, Or.inr ?_⟩
      · show (listInsert (bisect_right st.diemap o) (mkDIE r st.nextId o) st.dielist).map DIE.offset
            = listInsert (bisect_right st.diemap o) o st.diemap
        rw [map_listInsert, hmap]
        rfl
      · show (listInsert (bisect_right st.diemap o) o st.diemap).head? = some tu.tu_die_offset
        rw [listInsert_head_of_pos o st.diemap _ hpos hne]
        exact hhd

theorem get_cached_preserves_inv (tu : TypeUnit) (st : TUState) (o : Nat)
    (h : CacheInv tu st) (hge : tu.tu_die_offset ≤ o) :
    CacheInv tu (tu._get_cached_DIE st o).1 := by
  obtain ⟨hmap, hsort, hhead⟩ := h
  by_cases hne : st.diemap = []
  · have hdl : st.dielist = [] := by
      cases hl : st.dielist with
      | nil => rfl
      | cons a as =>
        rw [hl, hne] at hmap
        simp at hmap
    cases hs : tu.stream tu.tu_die_offset with
    | none =>
      rw [fetch_cold_fail tu st o hne hs]
      exact ⟨hmap, hsort, Or.inl hne⟩
    | some r =>
      rw [fetch_cold_unfold tu st o r hne hs]
      have hwarm : CacheInv tu
          { st with dielist := mkDIE r st.nextId tu.tu_die_offset :: st.dielist,
                    diemap := tu.tu_die_offset :: st.diemap,
                    nextId := st.nextId + 1 } := by
        refine ⟨by simp [hdl, hne, mkDIE], by rw [hne]; simp, Or.inr (by simp)⟩
      exact get_cached_preserves_inv_warm tu _ o hwarm hge (by simp)
  · exact get_cached_preserves_inv_warm tu st o ⟨hmap, hsort, hhead⟩ hge hne

/-- In a strictly sorted list every value occurs at one position only. -/
theorem sorted_getElem?_inj {l : List Nat} {i j v : Nat}
    (hsort : List.Pairwise (· < ·) l)
    (hi : l[i]? = some v) (hj : l[j]? = some v) : i = j := by
  obtain ⟨hi1, hi2⟩ := List.getElem?_eq_some.mp hi
  obtain ⟨hj1, hj2⟩ := List.getElem?_eq_some.mp hj
  by_contra hne
  rcases Nat.lt_or_ge i j with h | h
  · have := List.pairwise_iff_getElem.mp hsort i j hi1 hj1 h
    omega
  · have hlt : j < i := by omega
    have := List.pairwise_iff_getElem.mp hsort j i hj1 hi1 hlt
    omega

theorem listInsert_getElem?_self (x : α) (l : List α) (i : Nat) (hle : i ≤ l.length) :
    (listInsert i x l)[i]? = some x := by
  unfold listInsert
  have hlen : (l.take i).length = i := by
    simp [List.length_take]
    omega
  rw [List.getElem?_append_right (by omega)]
  rw [hlen]
  simp

theorem mem_listInsert_self (x : α) (l : List α) (i : Nat) :
    x ∈ listInsert i x l := by
  unfold listInsert
  exact List.mem_append_right _ (List.mem_cons_self x _)

/-- Once the top DIE is at the head of the cache and the probe is at or
beyond its offset, a lookup never displaces it from position 0. -/
theorem fetch_head_stable (tu : TypeUnit) (st : TUState) (o : Nat) (top : DIE)
    (hInv : CacheInv tu st) (hge : tu.tu_die_offset ≤ o)
    (hne : st.diemap ≠ []) (hh : st.dielist.head? = some top) :
    (tu._get_cached_DIE st o).1.dielist.head? = some top := by
  obtain ⟨hmap, hsort, hhead⟩ := hInv
  by_cases hmem : o ∈ st.diemap
  · obtain ⟨k, d, _, _, _, heq⟩ := fetch_cached tu st o hmap hsort hmem
    rw [heq]
    exact hh
  · cases hs : tu.stream o with
    | none =>
      rw [fetch_fail tu st o hmap hne hmem hs]
      exact hh
    | some r =>
      rw [fetch_new tu st o r hmap hne hmem hs]
      have hhd : st.diemap.head? = some tu.tu_die_offset := by
        rcases hhead with h | h
        · exact absurd h hne
        · exact h
      have hpos : 1 ≤ bisect_right st.diemap o := bisect_pos_of_head_le hhd hge
      have hdlne : st.dielist ≠ [] := by
        intro h
        rw [h] at hh
        simp at hh
      show (listInsert (bisect_right st.diemap o) (mkDIE r st.nextId o) st.dielist).head?
          = some top
      rw [listInsert_head_of_pos _ _ _ hpos hdlne]
      exact hh

/-- A small concrete unit used to exercise the theorems: the top DIE at
offset 4 has one child at offset 6 and the child list terminator at
offset 9. -/
def tuA : TypeUnit :=
  { tu_offset := 0, tu_die_offset := 4, unit_length := 20,
    initial_length_field_size := 4, supplementary_dwarfinfo := false,
    suppResolve := fun _ _ => none,
    stream := fun o =>
      if o = 4 then some ⟨some "DW_TAG_type_unit", true, 2, []⟩
      else if o = 6 then some ⟨some "DW_TAG_base_type", false, 3, []⟩
      else if o = 9 then some ⟨none, false, 1, []⟩
      else none }

/-- The state of `tuA` after its top DIE has been parsed and cached. -/
def stA : TUState :=
  (tuA.get_top_DIE TUState.initState).1

/-- C4: a lookup of an already cached offset returns exactly the cached
object with no state change; a lookup of a fresh offset parses one new
DIE, inserts it at the bisect-computed position of the ascending offset
order (which is preserved), and every subsequent lookup of that offset
returns that very object with no further change. -/
theorem claim_C4 (tu : TypeUnit) (st : TUState) (o : Nat) (r : DieInfo)
    (hmap : st.dielist.map DIE.offset = st.diemap)
    (hsort : List.Pairwise (· < ·) st.diemap)
    (hne : st.diemap ≠ []) :
    (o ∈ st.diemap →
      ∃ (k : Nat) (d : DIE), st.diemap[k]? = some o ∧ st.dielist[k]? = some d ∧
        tu._get_cached_DIE st o = (st, .ok d)) ∧
    (o ∉ st.diemap → tu.stream o = some r →
      ∃ st', tu._get_cached_DIE st o = (st', .ok (mkDIE r st.nextId o)) ∧
        st'.diemap = listInsert (bisect_right st.diemap o) o st.diemap ∧
        List.Pairwise (· < ·) st'.diemap ∧
        tu._get_cached_DIE st' o = (st', .ok (mkDIE r st.nextId o))) := by
  constructor
  · intro hmem
    obtain ⟨k, d, h1, h2, h3, h4⟩ := fetch_cached tu st o hmap hsort hmem
    exact ⟨k, d, h1, h2, h4⟩
  · intro hnm hs
    rw [fetch_new tu st o r hmap hne hnm hs]
    refine ⟨_, rfl, rfl, bisect_insert_sorted hsort hnm, ?_⟩
    have hmap' : (listInsert (bisect_right st.diemap o) (mkDIE r st.nextId o) st.dielist).map
        DIE.offset = listInsert (bisect_right st.diemap o) o st.diemap := by
      rw [map_listInsert, hmap]
      rfl
    have hsort' := bisect_insert_sorted hsort hnm
    have hmem' : o ∈ listInsert (bisect_right st.diemap o) o st.diemap :=
      mem_listInsert_self o st.diemap _
    obtain ⟨k, d, hk, hd, hoff, heq⟩ := fetch_cached tu
      { st with
        dielist := listInsert (bisect_right st.diemap o) (mkDIE r st.nextId o) st.dielist,
        diemap := listInsert (bisect_right st.diemap o) o st.diemap,
        nextId := st.nextId + 1 } o hmap' hsort' hmem'
    have hle : bisect_right st.diemap o ≤ st.diemap.length := bisect_le_length _ _
    have hself : (listInsert (bisect_right st.diemap o) o st.diemap)[bisect_right st.diemap o]?
        = some o := listInsert_getElem?_self o st.diemap _ hle
    have hki : k = bisect_right st.diemap o := sorted_getElem?_inj hsort' hk hself
    have hlen : st.dielist.length = st.diemap.length := by
      rw [← hmap]
      simp
    have hdself : (listInsert (bisect_right st.diemap o) (mkDIE r st.nextId o) st.dielist)[bisect_right st.diemap o]?
        = some (mkDIE r st.nextId o) :=
      listInsert_getElem?_self (mkDIE r st.nextId o) st.dielist _ (by omega)
    have hdm : d = mkDIE r st.nextId o := by
      rw [hki] at hd
      rw [hd] at hdself
      exact Option.some.injEq _ _ ▸ hdself
    rw [hdm] at heq
    exact heq

theorem claim_C4_witness :
    (stA.dielist.map DIE.offset = stA.diemap ∧
     List.Pairwise (· < ·) stA.diemap ∧ stA.diemap ≠ []) ∧
    ((6 ∈ stA.diemap →
      ∃ (k : Nat) (d : DIE), stA.diemap[k]? = some 6 ∧ stA.dielist[k]? = some d ∧
        tuA._get_cached_DIE stA 6 = (stA, .ok d)) ∧
     (6 ∉ stA.diemap →
      tuA.stream 6 = some ⟨some "DW_TAG_base_type", false, 3, []⟩ →
      ∃ st', tuA._get_cached_DIE stA 6 =
          (st', .ok (mkDIE ⟨some "DW_TAG_base_type", false, 3, []⟩ stA.nextId 6)) ∧
        st'.diemap = listInsert (bisect_right stA.diemap 6) 6 stA.diemap ∧
        List.Pairwise (· < ·) st'.diemap ∧
        tuA._get_cached_DIE st' 6 =
          (st', .ok (mkDIE ⟨some "DW_TAG_base_type", false, 3, []⟩ stA.nextId 6)))) :=
  ⟨⟨by decide, by decide, by decide⟩,
   claim_C4 tuA stA 6 ⟨some "DW_TAG_base_type", false, 3, []⟩
     (by decide) (by decide) (by decide)⟩

deriving instance DecidableEq for Except

instance (tu : TypeUnit) (st : TUState) : Decidable (CacheInv tu st) := by
  unfold CacheInv
  infer_instance

instance (st : TUState) : Decidable (CacheSorted st) := by
  unfold CacheSorted
  infer_instance

/-- Looking up exactly the top-entry offset on a warm cache returns the
cached top entry without any state change. -/
theorem fetch_top_offset (tu : TypeUnit) (st : TUState)
    (hInv : CacheInv tu st) (hne : st.diemap ≠ []) :
    ∃ top, st.dielist.head? = some top ∧
      tu._get_cached_DIE st tu.tu_die_offset = (st, .ok top) := by
  obtain ⟨hmap, hsort, hhead⟩ := hInv
  have hhd : st.diemap.head? = some tu.tu_die_offset := hhead.resolve_left hne
  have h0 : st.diemap[0]? = some tu.tu_die_offset := by
    cases h : st.diemap with
    | nil => exact absurd h hne
    | cons a t =>
      rw [h] at hhd
      simpa using hhd
  have hmem : tu.tu_die_offset ∈ st.diemap := by
    cases h : st.diemap with
    | nil => exact absurd h hne
    | cons a t =>
      rw [h] at h0
      simp at h0
      simp [h0]
  obtain ⟨k, d, hk, hd, hoff, heq⟩ := fetch_cached tu st _ hmap hsort hmem
  have hk0 : k = 0 := sorted_getElem?_inj hsort hk h0
  cases hl : st.dielist with
  | nil =>
    rw [hk0, hl] at hd
    simp at hd
  | cons d0 ds =>
    rw [hk0, hl] at hd
    simp at hd
    subst hd
    exact ⟨d0, by simp [hl], heq⟩

/-- C2: resolving an offset one byte before the top-entry offset fails
with RangeError; resolving any offset at or beyond the end of the unit
fails with RangeError; resolving exactly the top-entry offset succeeds
and coincides with `get_top_DIE`, returning the top entry. -/
theorem claim_C2 (tu : TypeUnit) (st : TUState)
    (hInv : CacheInv tu st)
    (hpos : 1 ≤ tu.tu_die_offset)
    (hin : tu.tu_die_offset < tu.tu_offset + tu.size)
    (hsome : st.diemap = [] → (tu.stream tu.tu_die_offset).isSome) :
    (tu.get_DIE_from_refaddr st (tu.tu_die_offset - 1)).2
        = .error (.rangeError (tu.tu_die_offset - 1) tu.cu_offset) ∧
    (∀ k, tu.tu_offset + tu.size ≤ k →
      (tu.get_DIE_from_refaddr st k).2 = .error (.rangeError k tu.cu_offset)) ∧
    (∃ st' top, tu.get_top_DIE st = (st', .ok top) ∧
      tu.get_DIE_from_refaddr st tu.tu_die_offset = (st', .ok top)) := by
  refine ⟨?_, ?_, ?_⟩
  · have hnc : ¬(tu.cu_die_offset ≤ tu.tu_die_offset - 1 ∧
        tu.tu_die_offset - 1 < tu.cu_offset + tu.size) := by
      intro hc
      have h1 := hc.1
      simp only [TypeUnit.cu_die_offset] at h1
      omega
    rw [TypeUnit.get_DIE_from_refaddr, if_neg hnc]
  · intro k hk
    have hnc : ¬(tu.cu_die_offset ≤ k ∧ k < tu.cu_offset + tu.size) := by
      intro hc
      have h2 := hc.2
      simp only [TypeUnit.cu_offset] at h2
      omega
    rw [TypeUnit.get_DIE_from_refaddr, if_neg hnc]
  · have hcond : tu.cu_die_offset ≤ tu.tu_die_offset ∧
        tu.tu_die_offset < tu.cu_offset + tu.size := by
      refine ⟨le_rfl, ?_⟩
      simpa [TypeUnit.cu_offset] using hin
    rw [TypeUnit.get_DIE_from_refaddr, if_pos hcond]
    obtain ⟨hmap, hsort, hhead⟩ := hInv
    by_cases hne : st.diemap = []
    · have hdl : st.dielist = [] := by
        cases hl : st.dielist with
        | nil => rfl
        | cons a as =>
          rw [hl, hne] at hmap
          simp at hmap
      obtain ⟨r, hr⟩ := Option.isSome_iff_exists.mp (hsome hne)
      have hInv1 : CacheInv tu
          { st with dielist := mkDIE r st.nextId tu.tu_die_offset :: st.dielist,
                    diemap := tu.tu_die_offset :: st.diemap,
                    nextId := st.nextId + 1 } := by
        refine ⟨by simp [hdl, hne, mkDIE], by rw [hne]; simp, Or.inr (by simp)⟩
      obtain ⟨top, hh, heq⟩ := fetch_top_offset tu _ hInv1 (by simp)
      have htopmk : top = mkDIE r st.nextId tu.tu_die_offset := by
        simp at hh
        exact hh.symm
      refine ⟨{ st with dielist := mkDIE r st.nextId tu.tu_die_offset :: st.dielist,
                        diemap := tu.tu_die_offset :: st.diemap,
                        nextId := st.nextId + 1 }, top, ?_, ?_⟩
      · rw [get_top_cold tu st r hne hr, htopmk]
      · rw [fetch_cold_unfold tu st _ r hne hr]
        exact heq
    · obtain ⟨top, hh, heq⟩ := fetch_top_offset tu st ⟨hmap, hsort, hhead⟩ hne
      exact ⟨st, top, get_top_warm tu st top hh hne, heq⟩

theorem claim_C2_witness :
    (CacheInv tuA stA ∧ 1 ≤ tuA.tu_die_offset ∧
     tuA.tu_die_offset < tuA.tu_offset + tuA.size ∧
     (stA.diemap = [] → (tuA.stream tuA.tu_die_offset).isSome)) ∧
    ((tuA.get_DIE_from_refaddr stA (tuA.tu_die_offset - 1)).2
        = .error (.rangeError (tuA.tu_die_offset - 1) tuA.cu_offset) ∧
     (∀ k, tuA.tu_offset + tuA.size ≤ k →
       (tuA.get_DIE_from_refaddr stA k).2 = .error (.rangeError k tuA.cu_offset)) ∧
     (∃ st' top, tuA.get_top_DIE stA = (st', .ok top) ∧
       tuA.get_DIE_from_refaddr stA tuA.tu_die_offset = (st', .ok top))) :=
  ⟨⟨by decide, by decide, by decide, by decide⟩,
   claim_C2 tuA stA (by decide) (by decide) (by decide) (by decide)⟩

/-- C7 (amended): a DIE is inserted into the cache only after its parse
succeeds, so a failing `_get_cached_DIE` call never adds a partial DIE.
With the top DIE already cached a failing call leaves the cache exactly
as it was; on a cold cache a failing call can add at most the fully and
successfully parsed top DIE before failing on the requested offset. -/
theorem claim_C7 (tu : TypeUnit) (st : TUState) (o : Nat) (st' : TUState) (e : Err)
    (hmap : st.dielist.map DIE.offset = st.diemap)
    (hsort : List.Pairwise (· < ·) st.diemap)
    (h : tu._get_cached_DIE st o = (st', .error e)) :
    (st.diemap ≠ [] → st' = st ∧ e = .formatError o) ∧
    (st.diemap = [] → st' = st ∨
      ∃ r, tu.stream tu.tu_die_offset = some r ∧
        st' = { st with dielist := mkDIE r st.nextId tu.tu_die_offset :: st.dielist,
                        diemap := tu.tu_die_offset :: st.diemap,
                        nextId := st.nextId + 1 }) := by
  constructor
  · intro hne
    obtain ⟨h1, h2, _⟩ := fetch_err_state tu st o st' e hmap hsort hne h
    exact ⟨h1, h2⟩
  · intro hne
    have hdl : st.dielist = [] := by
      cases hl : st.dielist with
      | nil => rfl
      | cons a as =>
        rw [hl, hne] at hmap
        simp at hmap
    cases hs : tu.stream tu.tu_die_offset with
    | none =>
      rw [fetch_cold_fail tu st o hne hs] at h
      exact Or.inl (Prod.ext_iff.mp h).1.symm
    | some r =>
      right
      refine ⟨r, rfl, ?_⟩
      rw [fetch_cold_unfold tu st o r hne hs] at h
      obtain ⟨h1, _, _⟩ := fetch_err_state tu _ o st' e
        (by simp [hdl, hne, mkDIE]) (by simp [hne]) (by simp) h
      exact h1

/-- C7 counterexample: on a cold cache, a failing lookup still inserts
the successfully parsed top DIE, so the cache size is not unchanged. -/
theorem claim_C7_cex :
    TUState.initState.diemap.length = 0 ∧
    errDIE (tuA._get_cached_DIE TUState.initState 100) = some (.formatError 100) ∧
    (tuA._get_cached_DIE TUState.initState 100).1.diemap.length = 1 := by
  decide

theorem claim_C7_witness :
    (stA.dielist.map DIE.offset = stA.diemap ∧
     List.Pairwise (· < ·) stA.diemap ∧
     tuA._get_cached_DIE stA 100 = (stA, .error (.formatError 100))) ∧
    ((stA.diemap ≠ [] → stA = stA ∧ Err.formatError 100 = .formatError 100) ∧
     (stA.diemap = [] → stA = stA ∨
      ∃ r, tuA.stream tuA.tu_die_offset = some r ∧
        stA = { stA with
                dielist := mkDIE r stA.nextId tuA.tu_die_offset :: stA.dielist,
                diemap := tuA.tu_die_offset :: stA.diemap,
                nextId := stA.nextId + 1 })) :=
  ⟨⟨by decide, by decide, by decide⟩,
   claim_C7 tuA stA 100 stA (.formatError 100) (by decide) (by decide) (by decide)⟩

/-- C9: from a fresh state, `has_top_DIE` is false; after a successful
`get_top_DIE` it is true, a second `get_top_DIE` returns the identical
cached object with no state change, and `has_top_DIE` is always the pure
cache-presence test, performing no parse and no cache change. -/
theorem claim_C9 (tu : TypeUnit) (st1 : TUState) (top : DIE)
    (h : tu.get_top_DIE TUState.initState = (st1, .ok top)) :
    tu.has_top_DIE TUState.initState = false ∧
    tu.has_top_DIE st1 = true ∧
    tu.get_top_DIE st1 = (st1, .ok top) ∧
    (∀ st : TUState, tu.has_top_DIE st = !st.diemap.isEmpty) := by
  cases hs : tu.stream tu.tu_die_offset with
  | none =>
    rw [get_top_cold_fail tu TUState.initState rfl hs] at h
    simp at h
  | some r =>
    rw [get_top_cold tu TUState.initState r rfl hs] at h
    injection h with h1 h2
    injection h2 with h3
    refine ⟨rfl, ?_, ?_, fun st => rfl⟩
    · rw [← h1]
      rfl
    · rw [← h1, ← h3]
      exact get_top_warm tu _ _ (by simp) (by simp)

/-- The DIE parsed at the top offset of `tuA`. -/
def dieTopA : DIE :=
  { id := 0, offset := 4, tag := some "DW_TAG_type_unit", has_children := true,
    size := 2, attributes := [] }

theorem claim_C9_witness :
    tuA.get_top_DIE TUState.initState = (stA, .ok dieTopA) ∧
    (tuA.has_top_DIE TUState.initState = false ∧
     tuA.has_top_DIE stA = true ∧
     tuA.get_top_DIE stA = (stA, .ok dieTopA) ∧
     (∀ st : TUState, tuA.has_top_DIE st = !st.diemap.isEmpty)) :=
  ⟨by decide, claim_C9 tuA stA dieTopA (by decide)⟩

/-- C10: after the `get_top_DIE` call at the start of `_get_cached_DIE`
the cache is nonempty, so for a probe at or beyond the top-entry offset
the bisect insertion point is at least 1, the subscription at `i - 1`
never reads position -1, and an insertion never displaces the top DIE
from cache position 0. -/
theorem claim_C10 (tu : TypeUnit) (st st1 : TUState) (o : Nat) (top : DIE)
    (hInv : CacheInv tu st) (hge : tu.tu_die_offset ≤ o)
    (htop : tu.get_top_DIE st = (st1, .ok top)) :
    1 ≤ bisect_right st1.diemap o ∧
    (pyIndex st1.diemap ((bisect_right st1.diemap o : Int) - 1)).isSome = true ∧
    (tu._get_cached_DIE st o).1.dielist.head? = some top := by
  obtain ⟨hmap, hsort, hhead⟩ := hInv
  by_cases hne : st.diemap = []
  · have hdl : st.dielist = [] := by
      cases hl : st.dielist with
      | nil => rfl
      | cons a as =>
        rw [hl, hne] at hmap
        simp at hmap
    cases hs : tu.stream tu.tu_die_offset with
    | none =>
      rw [get_top_cold_fail tu st hne hs] at htop
      simp at htop
    | some r =>
      rw [get_top_cold tu st r hne hs] at htop
      injection htop with h1 h2
      injection h2 with h3
      have hInv1 : CacheInv tu
          { st with dielist := mkDIE r st.nextId tu.tu_die_offset :: st.dielist,
                    diemap := tu.tu_die_offset :: st.diemap,
                    nextId := st.nextId + 1 } := by
        refine ⟨by simp [hdl, hne, mkDIE], by rw [hne]; simp, Or.inr (by simp)⟩
      refine ⟨?_, ?_, ?_⟩
      · apply bisect_pos_of_head_le (m := tu.tu_die_offset) _ hge
        rw [← h1]
        simp
      · obtain ⟨x, hx⟩ := pyIndex_some_of_le st1.diemap _
          (bisect_le_length _ _) (by rw [← h1]; simp)
        rw [hx]
        rfl
      · rw [fetch_cold_unfold tu st o r hne hs]
        apply fetch_head_stable tu _ o top hInv1 hge (by simp)
        rw [← h3]
        simp
  · obtain ⟨d, hd, heq⟩ := get_top_warm_inv tu st hmap hne
    rw [heq] at htop
    injection htop with h1 h2
    injection h2 with h3
    have hhd : st.diemap.head? = some tu.tu_die_offset := hhead.resolve_left hne
    refine ⟨?_, ?_, ?_⟩
    · apply bisect_pos_of_head_le (m := tu.tu_die_offset) _ hge
      rw [← h1]
      exact hhd
    · obtain ⟨x, hx⟩ := pyIndex_some_of_le st1.diemap _
        (bisect_le_length _ _) (by rw [← h1]; exact hne)
      rw [hx]
      rfl
    · apply fetch_head_stable tu st o top ⟨hmap, hsort, hhead⟩ hge hne
      exact h3 ▸ hd

theorem claim_C10_witness :
    (CacheInv tuA stA ∧ tuA.tu_die_offset ≤ 6 ∧
     tuA.get_top_DIE stA = (stA, .ok dieTopA)) ∧
    (1 ≤ bisect_right stA.diemap 6 ∧
     (pyIndex stA.diemap ((bisect_right stA.diemap 6 : Int) - 1)).isSome = true ∧
     (tuA._get_cached_DIE stA 6).1.dielist.head? = some dieTopA) :=
  ⟨⟨by decide, by decide, by decide⟩,
   claim_C10 tuA stA stA 6 dieTopA (by decide) (by decide) (by decide)⟩

/-- Extracts the error of a traversal run; `none` on success. -/
def errList (r : TUState × Except Err (List DIE)) : Option Err :=
  match r.2 with
  | .ok _ => none
  | .error e => some e

/-- Recognizes the FormatError class of errors. -/
def isFormatError : Err → Bool
  | .formatError _ => true
  | _ => false

/-- C6: a DIE without children yields nothing; otherwise iteration
starts at the cursor `die.offset + die.size`; a fetched null child has
its parent set, is recorded as the terminator of `die` and ends the
iteration without being yielded; a fetched non-null child without
children has its parent set, is yielded, and the cursor advances by
exactly its size. -/
theorem claim_C6 (tu : TypeUnit) (die : DIE) (st : TUState) (fuel : Nat) :
    (die.has_children = false → tu.iter_DIE_children die st fuel = (st, .ok [])) ∧
    (die.has_children = true → tu.iter_DIE_children die st fuel
        = tu.iterChildrenAux die fuel (die.offset + die.size) st []) ∧
    (∀ (cursor : Nat) (st1 : TUState) (child : DIE) (acc : List DIE) (f : Nat),
      tu._get_cached_DIE st cursor = (st1, .ok child) →
      child.is_null = true →
      tu.iterChildrenAux die (f + 1) cursor st acc
          = ((st1.setParent child.offset die.offset).setTerminator die.offset child,
             .ok acc.reverse) ∧
        ((st1.setParent child.offset die.offset).setTerminator die.offset
            child).termMap.lookup die.offset = some child ∧
        ((st1.setParent child.offset die.offset).setTerminator die.offset
            child).parentMap.lookup child.offset = some die.offset) ∧
    (∀ (cursor : Nat) (st1 : TUState) (child : DIE) (acc : List DIE) (f : Nat),
      tu._get_cached_DIE st cursor = (st1, .ok child) →
      child.is_null = false → child.has_children = false →
      tu.iterChildrenAux die (f + 1) cursor st acc
          = tu.iterChildrenAux die f (cursor + child.size)
              (st1.setParent child.offset die.offset) (child :: acc) ∧
        (st1.setParent child.offset die.offset).parentMap.lookup child.offset
          = some die.offset) := by
  refine ⟨?_, ?_, ?_, ?_⟩
  · intro h
    simp [TypeUnit.iter_DIE_children, h]
  · intro h
    simp [TypeUnit.iter_DIE_children, h]
  · intro cursor st1 child acc f hfetch hnull
    refine ⟨?_, ?_, ?_⟩
    · simp only [TypeUnit.iterChildrenAux, hfetch]
      simp [hnull]
    · simp [TUState.setTerminator, TUState.setParent, List.lookup]
    · simp [TUState.setTerminator, TUState.setParent, List.lookup]
  · intro cursor st1 child acc f hfetch hnull hhc
    refine ⟨?_, ?_⟩
    · simp only [TypeUnit.iterChildrenAux, hfetch]
      simp [hnull, hhc]
    · simp [TUState.setParent, List.lookup]

/-- The DIE cached at offset 6 of `tuA` (the single child of the top
DIE). -/
def dieB : DIE :=
  { id := 1, offset := 6, tag := some "DW_TAG_base_type", has_children := false,
    size := 3, attributes := [] }

/-- The state of `tuA` after also fetching the child at offset 6. -/
def stAB : TUState :=
  (tuA._get_cached_DIE stA 6).1

theorem claim_C6_witness :
    (dieTopA.has_children = true ∧
     tuA._get_cached_DIE stA 6 = (stAB, .ok dieB) ∧
     dieB.is_null = false ∧ dieB.has_children = false) ∧
    (tuA.iter_DIE_children dieTopA stA 3
        = tuA.iterChildrenAux dieTopA 3 (dieTopA.offset + dieTopA.size) stA [] ∧
     (tuA.iterChildrenAux dieTopA (2 + 1) 6 stA []
        = tuA.iterChildrenAux dieTopA 2 (6 + dieB.size)
            (stAB.setParent dieB.offset dieTopA.offset) [dieB] ∧
      (stAB.setParent dieB.offset dieTopA.offset).parentMap.lookup dieB.offset
        = some dieTopA.offset)) :=
  ⟨⟨by decide, by decide, by decide, by decide⟩,
   ⟨(claim_C6 tuA dieTopA stA 3).2.1 (by decide),
    (claim_C6 tuA dieTopA stA 3).2.2.2 6 stAB dieB [] 2
      (by decide) (by decide) (by decide)⟩⟩

/-- C1 (amended): when a child carries a sibling attribute, the six
recognized unit-relative reference forms set the cursor to the sibling
value plus the unit base offset `tu_offset`, the absolute form
DW_FORM_ref_addr sets the cursor to the sibling value as-is, and any
other form aborts the iteration with a NotImplementedError naming the
form (the code raises NotImplementedError, not a FormatError). -/
theorem claim_C1 (tu : TypeUnit) (die : DIE) (st : TUState) :
    ∀ (cursor : Nat) (st1 : TUState) (child : DIE) (sibling : AttrValue)
      (acc : List DIE) (f : Nat),
      tu._get_cached_DIE st cursor = (st1, .ok child) →
      child.is_null = false → child.has_children = true →
      child.attributes.lookup "DW_AT_sibling" = some sibling →
      ((sibling.form ∈ sibRefForms →
        tu.iterChildrenAux die (f + 1) cursor st acc
          = tu.iterChildrenAux die f (sibling.value + tu.tu_offset)
              (st1.setParent child.offset die.offset) (child :: acc)) ∧
       (sibling.form = "DW_FORM_ref_addr" →
        tu.iterChildrenAux die (f + 1) cursor st acc
          = tu.iterChildrenAux die f sibling.value
              (st1.setParent child.offset die.offset) (child :: acc)) ∧
       (sibling.form ∉ sibRefForms → sibling.form ≠ "DW_FORM_ref_addr" →
        tu.iterChildrenAux die (f + 1) cursor st acc
          = (st1.setParent child.offset die.offset,
             .error (.notImplementedError sibling.form)))) := by
  intro cursor st1 child sibling acc f hfetch hnull hhc hsib
  have hform : "DW_FORM_ref_addr" ∉ sibRefForms := by decide
  refine ⟨?_, ?_, ?_⟩
  · intro hmem
    simp only [TypeUnit.iterChildrenAux, hfetch]
    simp [hnull, hhc, hsib, hmem]
  · intro heq
    simp only [TypeUnit.iterChildrenAux, hfetch]
    simp [hnull, hhc, hsib, heq, hform]
  · intro hnm hne
    simp only [TypeUnit.iterChildrenAux, hfetch]
    simp [hnull, hhc, hsib, hnm, hne]

theorem setParent_dielist (st : TUState) (a b : Nat) :
    (st.setParent a b).dielist = st.dielist := rfl

theorem setParent_diemap (st : TUState) (a b : Nat) :
    (st.setParent a b).diemap = st.diemap := rfl

theorem setParent_termMap (st : TUState) (a b : Nat) :
    (st.setParent a b).termMap = st.termMap := rfl

theorem setParent_parentMap (st : TUState) (a b : Nat) :
    (st.setParent a b).parentMap = (a, b) :: st.parentMap := rfl

theorem setTerminator_dielist (st : TUState) (a : Nat) (c : DIE) :
    (st.setTerminator a c).dielist = st.dielist := rfl

theorem setTerminator_diemap (st : TUState) (a : Nat) (c : DIE) :
    (st.setTerminator a c).diemap = st.diemap := rfl

theorem setTerminator_termMap (st : TUState) (a : Nat) (c : DIE) :
    (st.setTerminator a c).termMap = (a, c) :: st.termMap := rfl

theorem cacheSorted_setParent (st : TUState) (a b : Nat) :
    CacheSorted (st.setParent a b) ↔ CacheSorted st := Iff.rfl

theorem cacheSorted_setTerminator (st : TUState) (a : Nat) (c : DIE) :
    CacheSorted (st.setTerminator a c) ↔ CacheSorted st := Iff.rfl

/-- A malformed unit for the sibling-form error path: the child at
offset 6 carries a sibling attribute in the unsupported form
DW_FORM_data4. -/
def tuC1 : TypeUnit :=
  { tu_offset := 0, tu_die_offset := 4, unit_length := 20,
    initial_length_field_size := 4, supplementary_dwarfinfo := false,
    suppResolve := fun _ _ => none,
    stream := fun o =>
      if o = 4 then some ⟨some "DW_TAG_type_unit", true, 2, []⟩
      else if o = 6 then some ⟨some "DW_TAG_structure_type", true, 2,
        [("DW_AT_sibling", ⟨"DW_FORM_data4", 12⟩)]⟩
      else none }

/-- The state of `tuC1` after its top DIE has been cached. -/
def stC1 : TUState :=
  (tuC1.get_top_DIE TUState.initState).1

/-- The top DIE of `tuC1`. -/
def dieTopC1 : DIE :=
  { id := 0, offset := 4, tag := some "DW_TAG_type_unit", has_children := true,
    size := 2, attributes := [] }

/-- C1 counterexample: on a child whose sibling attribute has the
unsupported form DW_FORM_data4 the iteration fails with
NotImplementedError, not with a FormatError. -/
theorem claim_C1_cex :
    errList (tuC1.iter_DIE_children dieTopC1 stC1 5)
        = some (.notImplementedError "DW_FORM_data4") ∧
    (errList (tuC1.iter_DIE_children dieTopC1 stC1 5)).any isFormatError = false := by
  decide

/-- A unit whose child at offset 6 carries a malicious sibling value:
the computed cursor 1 + tu_offset = 1 points below the top-entry offset
4, and a null DIE parses there. -/
def tuBad : TypeUnit :=
  { tu_offset := 0, tu_die_offset := 4, unit_length := 20,
    initial_length_field_size := 4, supplementary_dwarfinfo := false,
    suppResolve := fun _ _ => none,
    stream := fun o =>
      if o = 1 then some ⟨none, false, 1, []⟩
      else if o = 4 then some ⟨some "DW_TAG_type_unit", true, 2, []⟩
      else if o = 6 then some ⟨some "DW_TAG_structure_type", true, 2,
        [("DW_AT_sibling", ⟨"DW_FORM_ref4", 1⟩)]⟩
      else none }

/-- The state of `tuBad` after its top DIE has been cached. -/
def stBad : TUState :=
  (tuBad.get_top_DIE TUState.initState).1

/-- The top DIE of `tuBad`. -/
def dieTopBad : DIE :=
  { id := 0, offset := 4, tag := some "DW_TAG_type_unit", has_children := true,
    size := 2, attributes := [] }

/-- The child of the top DIE of `tuBad`, carrying the sibling
shortcut. -/
def dieBadChild : DIE :=
  { id := 1, offset := 6, tag := some "DW_TAG_structure_type",
    has_children := true, size := 2,
    attributes := [("DW_AT_sibling", ⟨"DW_FORM_ref4", 1⟩)] }

/-- The state of `tuBad` after also fetching the child at offset 6. -/
def stBad6 : TUState :=
  (tuBad._get_cached_DIE stBad 6).1

theorem claim_C1_witness :
    (tuBad._get_cached_DIE stBad 6 = (stBad6, .ok dieBadChild) ∧
     dieBadChild.is_null = false ∧ dieBadChild.has_children = true ∧
     dieBadChild.attributes.lookup "DW_AT_sibling"
        = some ⟨"DW_FORM_ref4", 1⟩ ∧
     AttrValue.form ⟨"DW_FORM_ref4", 1⟩ ∈ sibRefForms) ∧
    tuBad.iterChildrenAux dieTopBad (3 + 1) 6 stBad []
      = tuBad.iterChildrenAux dieTopBad 3
          (AttrValue.value ⟨"DW_FORM_ref4", 1⟩ + tuBad.tu_offset)
          (stBad6.setParent dieBadChild.offset dieTopBad.offset) [dieBadChild] :=
  ⟨⟨by decide, by decide, by decide, by decide, by decide⟩,
   (claim_C1 tuBad dieTopBad stBad 6 stBad6 dieBadChild ⟨"DW_FORM_ref4", 1⟩ [] 3
      (by decide) (by decide) (by decide) (by decide)).1 (by decide)⟩

theorem get_top_preserves_sorted (tu : TypeUnit) (st : TUState)
    (h : CacheSorted st) : CacheSorted (tu.get_top_DIE st).1 := by
  obtain ⟨hmap, hsort⟩ := h
  by_cases hne : st.diemap = []
  · have hdl : st.dielist = [] := by
      cases hl : st.dielist with
      | nil => rfl
      | cons a as =>
        rw [hl, hne] at hmap
        simp at hmap
    cases hs : tu.stream tu.tu_die_offset with
    | none =>
      rw [get_top_cold_fail tu st hne hs]
      exact ⟨hmap, hsort⟩
    | some r =>
      rw [get_top_cold tu st r hne hs]
      exact ⟨by simp [hdl, hne, mkDIE], by rw [hne]; simp⟩
  · obtain ⟨d, hd, heq⟩ := get_top_warm_inv tu st hmap hne
    rw [heq]
    exact ⟨hmap, hsort⟩

/-- Every step of the child-iteration loop keeps the cache parallel and
sorted, whatever the probed cursor values and whatever the outcome. -/
theorem iterAux_preserves_sorted (tu : TypeUnit) :
    ∀ (fuel : Nat) (die : DIE) (cursor : Nat) (st : TUState) (acc : List DIE),
      CacheSorted st → CacheSorted (tu.iterChildrenAux die fuel cursor st acc).1 := by
  intro fuel
  induction fuel with
  | zero =>
    intro die cursor st acc h
    simpa [TypeUnit.iterChildrenAux] using h
  | succ f ih =>
    intro die cursor st acc h
    cases hfetch : tu._get_cached_DIE st cursor with
    | mk st1 res =>
      have h1 : CacheSorted st1 := by
        have hx := get_cached_preserves_sorted tu st cursor h
        rw [hfetch] at hx
        exact hx
      cases res with
      | error e =>
        simp only [TypeUnit.iterChildrenAux, hfetch]
        exact h1
      | ok child =>
        simp only [TypeUnit.iterChildrenAux, hfetch]
        have h2 : CacheSorted (st1.setParent child.offset die.offset) := h1
        by_cases hn : child.is_null
        · simp only [hn, if_true]
          exact h2
        · by_cases hc : child.has_children
          · cases hs : child.attributes.lookup "DW_AT_sibling" with
            | some sibling =>
              by_cases hm : sibling.form ∈ sibRefForms
              · simp only [hn, hc, hs, hm]
                simp
                exact ih _ _ _ _ h2
              · by_cases hr : sibling.form = "DW_FORM_ref_addr"
                · simp only [hn, hc, hs]
                  simp [hm, hr]
                  exact ih _ _ _ _ h2
                · simp only [hn, hc, hs]
                  simp [hm, hr]
                  exact h2
            | none =>
              cases ht : st1.termMap.lookup child.offset with
              | some t =>
                simp only [hn, hc, hs]
                simp [setParent_termMap, ht]
                exact ih _ _ _ _ h2
              | none =>
                cases hdrain : tu.iterChildrenAux child f (child.offset + child.size)
                    (st1.setParent child.offset die.offset) [] with
                | mk st3 res3 =>
                  have h3 : CacheSorted st3 := by
                    have hx := ih child (child.offset + child.size)
                        (st1.setParent child.offset die.offset) [] h2
                    rw [hdrain] at hx
                    exact hx
                  cases res3 with
                  | error e =>
                    simp only [hn, hc, hs]
                    simp [setParent_termMap, ht, hdrain]
                    exact h3
                  | ok l =>
                    cases ht3 : st3.termMap.lookup child.offset with
                    | some t =>
                      simp only [hn, hc, hs]
                      simp [setParent_termMap, ht, hdrain, ht3]
                      exact ih _ _ _ _ h3
                    | none =>
                      simp only [hn, hc, hs]
                      simp [setParent_termMap, ht, hdrain, ht3]
                      exact h3
          · simp only [hn, hc]
            simp
            exact ih _ _ _ _ h2

theorem iter_children_preserves_sorted (tu : TypeUnit) (die : DIE)
    (st : TUState) (fuel : Nat) (h : CacheSorted st) :
    CacheSorted (tu.iter_DIE_children die st fuel).1 := by
  unfold TypeUnit.iter_DIE_children
  by_cases hc : die.has_children
  · simp only [hc, if_true]
    exact iterAux_preserves_sorted tu fuel die _ st [] h
  · simp [hc]
    exact h

/-- The subtree walk keeps the cache parallel and sorted: it only
touches the cache through child iteration. -/
theorem subtree_preserves_sorted (tu : TypeUnit) :
    ∀ (fuel : Nat) (die : DIE) (st : TUState),
      CacheSorted st → CacheSorted (tu._iter_DIE_subtree fuel die st).1 := by
  intro fuel
  induction fuel with
  | zero =>
    intro die st h
    simpa [TypeUnit._iter_DIE_subtree] using h
  | succ f ih =>
    have hforest : ∀ (cs : List DIE) (st : TUState), CacheSorted st →
        CacheSorted ((runForest (fun c s => tu._iter_DIE_subtree f c s) cs st)).1 := by
      intro cs
      induction cs with
      | nil =>
        intro st h
        simpa [runForest] using h
      | cons c rest ihc =>
        intro st h
        cases hstep : tu._iter_DIE_subtree f c st with
        | mk s1 r1 =>
          have h1 : CacheSorted s1 := by
            have hx := ih c st h
            rw [hstep] at hx
            exact hx
          cases r1 with
          | error e =>
            simp [runForest, hstep]
            exact h1
          | ok l1 =>
            cases hrec : runForest (fun c s => tu._iter_DIE_subtree f c s) rest s1 with
            | mk s2 r2 =>
              have h2 : CacheSorted s2 := by
                have hx := ihc s1 h1
                rw [hrec] at hx
                exact hx
              cases r2 with
              | error e =>
                simp [runForest, hstep, hrec]
                exact h2
              | ok l2 =>
                simp [runForest, hstep, hrec]
                exact h2
    intro die st h
    simp only [TypeUnit._iter_DIE_subtree]
    split
    next e he => exact h
    next d hd =>
      by_cases hc : d.has_children
      · simp only [hc, if_true]
        cases hch : tu.iter_DIE_children d st f with
        | mk s1 r1 =>
          have h1 : CacheSorted s1 := by
            have hx := iter_children_preserves_sorted tu d st f h
            rw [hch] at hx
            exact hx
          cases r1 with
          | error e =>
            simp [hch]
            exact h1
          | ok cs =>
            cases hfor : runForest (fun c s => tu._iter_DIE_subtree f c s) cs s1 with
            | mk s2 r2 =>
              have h2 : CacheSorted s2 := by
                have hx := hforest cs s1 h1
                rw [hfor] at hx
                exact hx
              cases r2 with
              | error e =>
                simp [hch, hfor]
                exact h2
              | ok rest =>
                cases ht : s2.termMap.lookup d.offset with
                | some t =>
                  simp [hch, hfor, ht]
                  exact h2
                | none =>
                  simp [hch, hfor, ht]
                  exact h2
      · simp [hc]
        exact h

theorem iter_DIEs_preserves_sorted (tu : TypeUnit) (st : TUState) (fuel : Nat)
    (h : CacheSorted st) : CacheSorted (tu.iter_DIEs st fuel).1 := by
  unfold TypeUnit.iter_DIEs
  cases htop : tu.get_top_DIE st with
  | mk st1 r1 =>
    have h1 : CacheSorted st1 := by
      have hx := get_top_preserves_sorted tu st h
      rw [htop] at hx
      exact hx
    cases r1 with
    | error e => exact h1
    | ok top => exact subtree_preserves_sorted tu fuel top st1 h1

theorem refaddr_preserves_inv (tu : TypeUnit) (st : TUState) (refaddr : Nat)
    (h : CacheInv tu st) : CacheInv tu (tu.get_DIE_from_refaddr st refaddr).1 := by
  unfold TypeUnit.get_DIE_from_refaddr
  split
  next hcond => exact get_cached_preserves_inv tu st refaddr h hcond.1
  next hcond => exact h

/-- C3 (amended): the byte size of the unit is by construction the
declared unit length plus the width of the length-prefix field; every
operation keeps the cache lists parallel with strictly ascending
offsets; `get_top_DIE` and the range-guarded `get_DIE_from_refaddr`
preserve the full invariant including the top entry at position 0, and
so does a cache lookup whenever the probed offset is at or beyond the
top-entry offset (which a malformed sibling value can violate, see the
counterexample). -/
theorem claim_C3 (tu : TypeUnit) (st : TUState) (fuel : Nat) :
    tu.size = tu.unit_length + tu.initial_length_field_size ∧
    (CacheInv tu st → CacheInv tu (tu.get_top_DIE st).1) ∧
    (CacheInv tu st → ∀ refaddr, CacheInv tu (tu.get_DIE_from_refaddr st refaddr).1) ∧
    (CacheInv tu st → ∀ o, tu.tu_die_offset ≤ o →
      CacheInv tu (tu._get_cached_DIE st o).1) ∧
    (CacheSorted st → ∀ o, CacheSorted (tu._get_cached_DIE st o).1) ∧
    (CacheSorted st → ∀ die, CacheSorted (tu.iter_DIE_children die st fuel).1) ∧
    (CacheSorted st → CacheSorted (tu.iter_DIEs st fuel).1) :=
  ⟨rfl,
   fun h => get_top_preserves_inv tu st h,
   fun h refaddr => refaddr_preserves_inv tu st refaddr h,
   fun h o hge => get_cached_preserves_inv tu st o h hge,
   fun h o => get_cached_preserves_sorted tu st o h,
   fun h die => iter_children_preserves_sorted tu die st fuel h,
   fun h => iter_DIEs_preserves_sorted tu st fuel h⟩

/-- C3 counterexample: from a state satisfying the invariant, one
successful child iteration over malformed data (a sibling value whose
resolved cursor lies below the top-entry offset) caches a DIE at offset
1 and demotes the top DIE from cache position 0, violating the claimed
invariant. -/
theorem claim_C3_cex :
    CacheInv tuBad stBad ∧
    (errList (tuBad.iter_DIE_children dieTopBad stBad 5)).isNone = true ∧
    (tuBad.iter_DIE_children dieTopBad stBad 5).1.diemap.head? = some 1 ∧
    tuBad.tu_die_offset = 4 ∧
    ¬ CacheInv tuBad (tuBad.iter_DIE_children dieTopBad stBad 5).1 := by
  decide

theorem claim_C3_witness :
    (CacheInv tuA stA ∧ CacheSorted stA ∧ tuA.tu_die_offset ≤ 6) ∧
    (tuA.size = tuA.unit_length + tuA.initial_length_field_size ∧
     CacheInv tuA (tuA.get_top_DIE stA).1 ∧
     CacheInv tuA (tuA.get_DIE_from_refaddr stA 6).1 ∧
     CacheInv tuA (tuA._get_cached_DIE stA 6).1 ∧
     CacheSorted (tuA._get_cached_DIE stA 6).1 ∧
     CacheSorted (tuA.iter_DIE_children dieTopA stA 5).1 ∧
     CacheSorted (tuA.iter_DIEs stA 5).1) :=
  ⟨⟨by decide, by decide, by decide⟩,
   ⟨(claim_C3 tuA stA 5).1,
    (claim_C3 tuA stA 5).2.1 (by decide),
    (claim_C3 tuA stA 5).2.2.1 (by decide) 6,
    (claim_C3 tuA stA 5).2.2.2.1 (by decide) 6 (by decide),
    (claim_C3 tuA stA 5).2.2.2.2.1 (by decide) 6,
    (claim_C3 tuA stA 5).2.2.2.2.2.1 (by decide) dieTopA,
    (claim_C3 tuA stA 5).2.2.2.2.2.2 (by decide)⟩⟩

/-- The null DIE terminating the child list of the top DIE of `tuA`. -/
def dieNullA : DIE :=
  { id := 2, offset := 9, tag := none, has_children := false, size := 1,
    attributes := [] }

/-- The state of `tuA` after iterating the children of its top DIE. -/
def st8 : TUState :=
  (tuA.iter_DIE_children dieTopA stA 9).1

/-- The state of `tuA` after also walking the subtrees of those
children. -/
def st8f : TUState :=
  (runForest (fun c s => tuA._iter_DIE_subtree 9 c s) [dieB] st8).1

/-- C8: the subtree enumeration is the depth-first pre-order walk that
yields the DIE, then the subtrees of its children in order, then the
recorded terminator; concretely, for the unit whose top entry A has the
single child B, `iter_DIEs` yields exactly [A, B, null-terminator-of-A]
(offsets 4, 6, 9) and the children of A are exactly [B]. -/
theorem claim_C8 (tu : TypeUnit) (die : DIE) (st st1 st2 : TUState)
    (cs rest : List DIE) (td : DIE) (fuel : Nat)
    (hnoimp : ¬(die.tag = some "DW_TAG_imported_unit" ∧
        tu.supplementary_dwarfinfo = true))
    (hhc : die.has_children = true)
    (hch : tu.iter_DIE_children die st fuel = (st1, .ok cs))
    (hfor : runForest (fun c s => tu._iter_DIE_subtree fuel c s) cs st1
        = (st2, .ok rest))
    (ht : st2.termMap.lookup die.offset = some td) :
    tu._iter_DIE_subtree (fuel + 1) die st = (st2, .ok (die :: (rest ++ [td]))) ∧
    okList (tuA.iter_DIEs TUState.initState 10)
        = some [dieTopA, dieB, dieNullA] ∧
    (okList (tuA.iter_DIEs TUState.initState 10)).map (List.map DIE.offset)
        = some [4, 6, 9] ∧
    okList (tuA.iter_DIE_children dieTopA stA 10) = some [dieB] := by
  refine ⟨?_, by decide, by decide, by decide⟩
  simp only [TypeUnit._iter_DIE_subtree]
  rw [if_neg hnoimp]
  simp [hhc, hch, hfor, ht]

theorem claim_C8_witness :
    (¬(dieTopA.tag = some "DW_TAG_imported_unit" ∧
        tuA.supplementary_dwarfinfo = true) ∧
     dieTopA.has_children = true ∧
     tuA.iter_DIE_children dieTopA stA 9 = (st8, .ok [dieB]) ∧
     runForest (fun c s => tuA._iter_DIE_subtree 9 c s) [dieB] st8
        = (st8f, .ok [dieB]) ∧
     st8f.termMap.lookup dieTopA.offset = some dieNullA) ∧
    tuA._iter_DIE_subtree (9 + 1) dieTopA stA
        = (st8f, .ok (dieTopA :: ([dieB] ++ [dieNullA]))) :=
  ⟨⟨by decide, by decide, by decide, by decide, by decide⟩,
   (claim_C8 tuA dieTopA stA st8 st8f [dieB] [dieB] dieNullA 9
      (by decide) (by decide) (by decide) (by decide) (by decide)).1⟩

/-!
Well-formed DIE trees and their byte-stream encodings, used to settle the
sibling-shortcut equivalence.  A `TNode` is one entry: a leaf has no
children; an internal node has a forest of children followed by a null
terminator of size 1.  `encN` lays a tree out at an offset, either with a
DW_AT_sibling shortcut on every internal node (pointing at the offset
right after its terminator, stored unit-relative in form DW_FORM_ref4) or
without any sibling attributes, which forces the fallback recursive scan.
-/

mutual
inductive TNode where
  | leaf (sz : Nat)
  | node (sz : Nat) (kids : TForest)
inductive TForest where
  | nil
  | cons (t : TNode) (ts : TForest)
end

mutual
def TNode.nend (off : Nat) : TNode → Nat
  | .leaf sz => off + sz
  | .node sz kids => TForest.fend (off + sz) kids + 1
def TForest.fend (off : Nat) : TForest → Nat
  | .nil => off
  | .cons t ts => TForest.fend (TNode.nend off t) ts
end

mutual
def TNode.wfB : TNode → Bool
  | .leaf sz => decide (1 ≤ sz)
  | .node sz kids => decide (1 ≤ sz) && TForest.wfB kids
def TForest.wfB : TForest → Bool
  | .nil => true
  | .cons t ts => TNode.wfB t && TForest.wfB ts
end

/-- The parse record of a leaf entry. -/
def leafRec (sz : Nat) : DieInfo :=
  ⟨some "DW_TAG_base_type", false, sz, []⟩

/-- The parse record of a child-list terminator. -/
def nullRec : DieInfo :=
  ⟨none, false, 1, []⟩

/-- The parse record of an internal entry at `off` with children `kids`;
with the shortcut, the sibling value is the next-sibling offset made
unit-relative. -/
def nodeRec (b : Bool) (u off sz : Nat) (kids : TForest) : DieInfo :=
  ⟨some "DW_TAG_structure_type", true, sz,
   if b then [("DW_AT_sibling",
     ⟨"DW_FORM_ref4", TForest.fend (off + sz) kids + 1 - u⟩)]
   else []⟩

mutual
def encN (b : Bool) (u off : Nat) : TNode → List (Nat × DieInfo)
  | .leaf sz => [(off, leafRec sz)]
  | .node sz kids =>
      (off, nodeRec b u off sz kids)
        :: (encF b u (off + sz) kids
            ++ [(TForest.fend (off + sz) kids, nullRec)])
def encF (b : Bool) (u off : Nat) : TForest → List (Nat × DieInfo)
  | .nil => []
  | .cons t ts => encN b u off t ++ encF b u (TNode.nend off t) ts
end

mutual
def TNode.trace (off : Nat) : TNode → List Nat
  | .leaf _ => [off]
  | .node sz kids =>
      off :: (TForest.ftrace (off + sz) kids ++ [TForest.fend (off + sz) kids])
def TForest.ftrace (off : Nat) : TForest → List Nat
  | .nil => []
  | .cons t ts => TNode.trace off t ++ TForest.ftrace (TNode.nend off t) ts
end

/-- The offsets of the roots of a forest laid out at `off`. -/
def TForest.roots (off : Nat) : TForest → List Nat
  | .nil => []
  | .cons t ts => off :: TForest.roots (TNode.nend off t) ts

mutual
def TNode.nexts (off : Nat) : TNode → List (Nat × Nat)
  | .leaf _ => []
  | .node sz kids =>
      (off, TForest.fend (off + sz) kids + 1) :: TForest.fnexts (off + sz) kids
def TForest.fnexts (off : Nat) : TForest → List (Nat × Nat)
  | .nil => []
  | .cons t ts => TNode.nexts off t ++ TForest.fnexts (TNode.nend off t) ts
end

mutual
def TNode.dfuel : TNode → Nat
  | .leaf _ => 0
  | .node _ kids => TForest.cfuel kids
def TForest.cfuel : TForest → Nat
  | .nil => 1
  | .cons t ts => 1 + TNode.dfuel t + TForest.cfuel ts
end

mutual
def TNode.sfuel : TNode → Nat
  | .leaf _ => 1
  | .node _ kids => 1 + TForest.cfuel kids + TForest.sfuelF kids
def TForest.sfuelF : TForest → Nat
  | .nil => 0
  | .cons t ts => TNode.sfuel t + TForest.sfuelF ts
end

/-- The unit whose stream carries the encoding of the tree `t` laid out
from `d0`, with base offset `u`; `b` selects whether internal entries
carry the sibling shortcut. -/
def encTU (b : Bool) (u d0 : Nat) (t : TNode) : TypeUnit :=
  { tu_offset := u, tu_die_offset := d0,
    unit_length := TNode.nend d0 t - u, initial_length_field_size := 4,
    supplementary_dwarfinfo := false, suppResolve := fun _ _ => none,
    stream := fun o => (encN b u d0 t).lookup o }

mutual
theorem fend_ge : ∀ (ts : TForest) (a : Nat), a ≤ TForest.fend a ts
  | .nil, a => le_rfl
  | .cons t ts, a => by
    have h1 : a ≤ TNode.nend a t := nend_ge t a
    have h2 : TNode.nend a t ≤ TForest.fend (TNode.nend a t) ts :=
      fend_ge ts (TNode.nend a t)
    show a ≤ TForest.fend (TNode.nend a t) ts
    omega
theorem nend_ge : ∀ (t : TNode) (off : Nat), off ≤ TNode.nend off t
  | .leaf sz, off => Nat.le_add_right off sz
  | .node sz kids, off => by
    have h1 : off + sz ≤ TForest.fend (off + sz) kids := fend_ge kids (off + sz)
    show off ≤ TForest.fend (off + sz) kids + 1
    omega
end

theorem nend_gt : ∀ (t : TNode) (off : Nat), TNode.wfB t = true →
    off < TNode.nend off t
  | .leaf sz, off, h => by
    have h1 : 1 ≤ sz := by simpa [TNode.wfB] using h
    show off < off + sz
    omega
  | .node sz kids, off, h => by
    have h1 : off + sz ≤ TForest.fend (off + sz) kids := fend_ge kids (off + sz)
    show off < TForest.fend (off + sz) kids + 1
    omega

theorem wfB_node {sz : Nat} {kids : TForest}
    (h : TNode.wfB (.node sz kids) = true) :
    1 ≤ sz ∧ TForest.wfB kids = true := by
  simpa [TNode.wfB, Bool.and_eq_true, decide_eq_true_eq] using h

theorem wfB_cons {t : TNode} {ts : TForest}
    (h : TForest.wfB (.cons t ts) = true) :
    TNode.wfB t = true ∧ TForest.wfB ts = true := by
  simpa [TForest.wfB, Bool.and_eq_true] using h

mutual
theorem encN_bounds : ∀ (t : TNode) (b : Bool) (u off : Nat),
    TNode.wfB t = true →
    ∀ p ∈ encN b u off t, off ≤ p.1 ∧ p.1 < TNode.nend off t
  | .leaf sz, b, u, off, h, p, hp => by
    simp [encN] at hp
    subst hp
    have h1 : 1 ≤ sz := by simpa [TNode.wfB] using h
    exact ⟨le_rfl, by show off < off + sz; omega⟩
  | .node sz kids, b, u, off, h, p, hp => by
    obtain ⟨hsz, hk⟩ := wfB_node h
    have hfe : off + sz ≤ TForest.fend (off + sz) kids := fend_ge kids (off + sz)
    simp only [encN, List.mem_cons, List.mem_append] at hp
    rcases hp with hp | hp | hp
    · subst hp
      exact ⟨le_rfl, nend_gt _ off h⟩
    · obtain ⟨hb1, hb2⟩ := encF_bounds kids b u (off + sz) hk p hp
      refine ⟨by omega, ?_⟩
      show p.1 < TForest.fend (off + sz) kids + 1
      omega
    · simp at hp
      obtain ⟨hp1, _⟩ := Prod.ext_iff.mp hp
      simp at hp1
      rw [hp1]
      exact ⟨by omega, by show _ < TForest.fend (off + sz) kids + 1; omega⟩
theorem encF_bounds : ∀ (ts : TForest) (b : Bool) (u a : Nat),
    TForest.wfB ts = true →
    ∀ p ∈ encF b u a ts, a ≤ p.1 ∧ p.1 < TForest.fend a ts
  | .nil, b, u, a, h, p, hp => by cases hp
  | .cons t ts, b, u, a, h, p, hp => by
    obtain ⟨ht, hts⟩ := wfB_cons h
    have hfe : TNode.nend a t ≤ TForest.fend (TNode.nend a t) ts :=
      fend_ge ts (TNode.nend a t)
    simp only [encF, List.mem_append] at hp
    rcases hp with hp | hp
    · obtain ⟨hb1, hb2⟩ := encN_bounds t b u a ht p hp
      refine ⟨hb1, ?_⟩
      show p.1 < TForest.fend (TNode.nend a t) ts
      omega
    · obtain ⟨hb1, hb2⟩ := encF_bounds ts b u (TNode.nend a t) hts p hp
      have hna : a ≤ TNode.nend a t := nend_ge t a
      exact ⟨by omega, hb2⟩
end

mutual
theorem encN_pairwise : ∀ (t : TNode) (b : Bool) (u off : Nat),
    TNode.wfB t = true →
    List.Pairwise (fun p q : Nat × DieInfo => p.1 < q.1) (encN b u off t)
  | .leaf sz, b, u, off, h => by simp [encN]
  | .node sz kids, b, u, off, h => by
    obtain ⟨hsz, hk⟩ := wfB_node h
    have hfe : off + sz ≤ TForest.fend (off + sz) kids := fend_ge kids (off + sz)
    simp only [encN]
    rw [List.pairwise_cons]
    constructor
    · intro p hp
      rcases List.mem_append.mp hp with h1 | h1
      · obtain ⟨hb1, _⟩ := encF_bounds kids b u (off + sz) hk p h1
        show off < p.1
        omega
      · simp at h1
        obtain ⟨hp1, _⟩ := Prod.ext_iff.mp h1
        simp at hp1
        rw [hp1]
        show off < TForest.fend (off + sz) kids
        omega
    · rw [List.pairwise_append]
      refine ⟨encF_pairwise kids b u (off + sz) hk, by simp, ?_⟩
      intro p hp q hq
      simp at hq
      obtain ⟨hq1, _⟩ := Prod.ext_iff.mp hq
      simp at hq1
      rw [hq1]
      exact (encF_bounds kids b u (off + sz) hk p hp).2
theorem encF_pairwise : ∀ (ts : TForest) (b : Bool) (u a : Nat),
    TForest.wfB ts = true →
    List.Pairwise (fun p q : Nat × DieInfo => p.1 < q.1) (encF b u a ts)
  | .nil, b, u, a, h => by simp [encF]
  | .cons t ts, b, u, a, h => by
    obtain ⟨ht, hts⟩ := wfB_cons h
    simp only [encF]
    rw [List.pairwise_append]
    refine ⟨encN_pairwise t b u a ht,
            encF_pairwise ts b u (TNode.nend a t) hts, ?_⟩
    intro p hp q hq
    have h1 := (encN_bounds t b u a ht p hp).2
    have h2 := (encF_bounds ts b u (TNode.nend a t) hts q hq).1
    show p.1 < q.1
    omega
end

theorem lookup_of_mem_pairwise {β : Type} {l : List (Nat × β)} {k : Nat} {v : β}
    (hp : List.Pairwise (fun p q : Nat × β => p.1 < q.1) l)
    (hm : (k, v) ∈ l) : l.lookup k = some v := by
  induction l with
  | nil => cases hm
  | cons q rest ih =>
    obtain ⟨qk, qv⟩ := q
    rcases List.pairwise_cons.mp hp with ⟨hq, hrest⟩
    rcases List.mem_cons.mp hm with h | h
    · obtain ⟨h1, h2⟩ := Prod.ext_iff.mp h
      simp at h1 h2
      subst h1
      subst h2
      simp [List.lookup]
    · have hk : qk < k := by simpa using hq (k, v) h
      have hne : (k == qk) = false := by
        simp
        omega
      simp [List.lookup, hne]
      exact ih hrest h

theorem pairwise_key_fun {l : List (Nat × Nat)}
    (hp : List.Pairwise (fun p q : Nat × Nat => p.1 < q.1) l)
    {o e1 e2 : Nat} (h1 : (o, e1) ∈ l) (h2 : (o, e2) ∈ l) : e1 = e2 := by
  induction l with
  | nil => cases h1
  | cons q rest ih =>
    obtain ⟨qk, qv⟩ := q
    rcases List.pairwise_cons.mp hp with ⟨hq, hrest⟩
    rcases List.mem_cons.mp h1 with ha | ha <;>
      rcases List.mem_cons.mp h2 with hb | hb
    · obtain ⟨ha1, ha2⟩ := Prod.ext_iff.mp ha
      obtain ⟨hb1, hb2⟩ := Prod.ext_iff.mp hb
      simp at ha2 hb2
      rw [ha2, hb2]
    · obtain ⟨ha1, ha2⟩ := Prod.ext_iff.mp ha
      simp at ha1
      have := hq (o, e2) hb
      simp at this
      omega
    · obtain ⟨hb1, hb2⟩ := Prod.ext_iff.mp hb
      simp at hb1
      have := hq (o, e1) ha
      simp at this
      omega
    · exact ih hrest ha hb

mutual
theorem nexts_bounds : ∀ (t : TNode) (off : Nat), TNode.wfB t = true →
    ∀ p ∈ TNode.nexts off t, off ≤ p.1 ∧ p.1 < TNode.nend off t
  | .leaf sz, off, h, p, hp => by cases hp
  | .node sz kids, off, h, p, hp => by
    obtain ⟨hsz, hk⟩ := wfB_node h
    have hfe : off + sz ≤ TForest.fend (off + sz) kids := fend_ge kids (off + sz)
    simp only [TNode.nexts, List.mem_cons] at hp
    rcases hp with hp | hp
    · obtain ⟨hp1, _⟩ := Prod.ext_iff.mp hp
      simp at hp1
      rw [hp1]
      exact ⟨le_rfl, nend_gt _ off h⟩
    · obtain ⟨hb1, hb2⟩ := fnexts_bounds kids (off + sz) hk p hp
      refine ⟨by omega, ?_⟩
      show p.1 < TForest.fend (off + sz) kids + 1
      omega
theorem fnexts_bounds : ∀ (ts : TForest) (a : Nat), TForest.wfB ts = true →
    ∀ p ∈ TForest.fnexts a ts, a ≤ p.1 ∧ p.1 < TForest.fend a ts
  | .nil, a, h, p, hp => by cases hp
  | .cons t ts, a, h, p, hp => by
    obtain ⟨ht, hts⟩ := wfB_cons h
    have hfe : TNode.nend a t ≤ TForest.fend (TNode.nend a t) ts :=
      fend_ge ts (TNode.nend a t)
    simp only [TForest.fnexts, List.mem_append] at hp
    rcases hp with hp | hp
    · obtain ⟨hb1, hb2⟩ := nexts_bounds t a ht p hp
      refine ⟨hb1, ?_⟩
      show p.1 < TForest.fend (TNode.nend a t) ts
      omega
    · obtain ⟨hb1, hb2⟩ := fnexts_bounds ts (TNode.nend a t) hts p hp
      have hna : a ≤ TNode.nend a t := nend_ge t a
      exact ⟨by omega, hb2⟩
end

mutual
theorem nexts_pairwise : ∀ (t : TNode) (off : Nat), TNode.wfB t = true →
    List.Pairwise (fun p q : Nat × Nat => p.1 < q.1) (TNode.nexts off t)
  | .leaf sz, off, h => by simp [TNode.nexts]
  | .node sz kids, off, h => by
    obtain ⟨hsz, hk⟩ := wfB_node h
    simp only [TNode.nexts]
    rw [List.pairwise_cons]
    refine ⟨?_, fnexts_pairwise kids (off + sz) hk⟩
    intro p hp
    have := (fnexts_bounds kids (off + sz) hk p hp).1
    show off < p.1
    omega
theorem fnexts_pairwise : ∀ (ts : TForest) (a : Nat), TForest.wfB ts = true →
    List.Pairwise (fun p q : Nat × Nat => p.1 < q.1) (TForest.fnexts a ts)
  | .nil, a, h => by simp [TForest.fnexts]
  | .cons t ts, a, h => by
    obtain ⟨ht, hts⟩ := wfB_cons h
    simp only [TForest.fnexts]
    rw [List.pairwise_append]
    refine ⟨nexts_pairwise t a ht, fnexts_pairwise ts (TNode.nend a t) hts, ?_⟩
    intro p hp q hq
    have h1 := (nexts_bounds t a ht p hp).2
    have h2 := (fnexts_bounds ts (TNode.nend a t) hts q hq).1
    show p.1 < q.1
    omega
end

/-- A cached DIE agrees with the parse record of the stream at its
offset. -/
def dieMatches (tu : TypeUnit) (d : DIE) : Prop :=
  tu.stream d.offset = some ⟨d.tag, d.has_children, d.size, d.attributes⟩

/-- The cache states reachable during a traversal of a well-formed
stream: parallel and sorted, nonempty (the top DIE is fetched first),
with every cached DIE agreeing with the stream. -/
def CacheOK (tu : TypeUnit) (st : TUState) : Prop :=
  CacheSorted st ∧ st.diemap ≠ [] ∧ ∀ d ∈ st.dielist, dieMatches tu d

/-- Every recorded terminator respects the next-sibling table `nx`: the
cursor it induces is the recorded next-sibling offset of its owner. -/
def TermOK (nx : List (Nat × Nat)) (st : TUState) : Prop :=
  ∀ o td, st.termMap.lookup o = some td → (o, td.offset + td.size) ∈ nx

theorem mem_listInsert {x y : α} {l : List α} {i : Nat}
    (h : x ∈ listInsert i y l) : x = y ∨ x ∈ l := by
  unfold listInsert at h
  rcases List.mem_append.mp h with h1 | h1
  · exact Or.inr (List.mem_of_mem_take h1)
  · rcases List.mem_cons.mp h1 with h2 | h2
    · exact Or.inl h2
    · exact Or.inr (List.mem_of_mem_drop h2)

theorem listInsert_ne_nil (x : α) (l : List α) (i : Nat) :
    listInsert i x l ≠ [] := by
  unfold listInsert
  simp

/-- On a stream that has a parse record at the probed offset, a lookup
from a reachable cache state succeeds, the returned DIE carries exactly
the fields of the record, and the state stays reachable; the terminator
and parent maps are untouched. -/
theorem fetch_matches (tu : TypeUnit) (st : TUState) (o : Nat) (r : DieInfo)
    (hC : CacheOK tu st) (hs : tu.stream o = some r) :
    ∃ st' d, tu._get_cached_DIE st o = (st', .ok d) ∧
      d.offset = o ∧ d.tag = r.tag ∧ d.has_children = r.has_children ∧
      d.size = r.size ∧ d.attributes = r.attributes ∧
      CacheOK tu st' ∧ st'.termMap = st.termMap ∧
      st'.parentMap = st.parentMap := by
  obtain ⟨⟨hmap, hsort⟩, hne, hall⟩ := hC
  by_cases hmem : o ∈ st.diemap
  · obtain ⟨k, d, hk, hd, hoff, heq⟩ := fetch_cached tu st o hmap hsort hmem
    obtain ⟨hlt, hget⟩ := List.getElem?_eq_some.mp hd
    have hdmem : d ∈ st.dielist := hget ▸ List.getElem_mem hlt
    have hmatch := hall d hdmem
    unfold dieMatches at hmatch
    rw [hoff, hs] at hmatch
    have hfields := Option.some.injEq .. ▸ hmatch
    obtain ⟨h1, h2, h3, h4⟩ := DieInfo.mk.injEq .. ▸ hfields
    exact ⟨st, d, heq, hoff, h1.symm, h2.symm, h3.symm, h4.symm,
      ⟨⟨hmap, hsort⟩, hne, hall⟩, rfl, rfl⟩
  · rw [fetch_new tu st o r hmap hne hmem hs]
    refine ⟨_, _, rfl, rfl, rfl, rfl, rfl, rfl, ?_, rfl, rfl⟩
    refine ⟨⟨?_, bisect_insert_sorted hsort hmem⟩, ?_, ?_⟩
    · show (listInsert (bisect_right st.diemap o) (mkDIE r st.nextId o) st.dielist).map
          DIE.offset = listInsert (bisect_right st.diemap o) o st.diemap
      rw [map_listInsert, hmap]
      rfl
    · exact listInsert_ne_nil _ _ _
    · intro d hd
      rcases mem_listInsert hd with h1 | h1
      · subst h1
        unfold dieMatches mkDIE
        simpa using hs
      · exact hall d h1

theorem lookup_cons_self {β : Type} (k : Nat) (v : β) (l : List (Nat × β)) :
    ((k, v) :: l).lookup k = some v := by
  simp [List.lookup]

theorem lookup_cons_ne {β : Type} {k a : Nat} (v : β) (l : List (Nat × β))
    (h : k ≠ a) : ((a, v) :: l).lookup k = l.lookup k := by
  have hb : (k == a) = false := by simpa using h
  simp [List.lookup, hb]

theorem cfuel_pos : ∀ ts : TForest, 1 ≤ TForest.cfuel ts
  | .nil => le_rfl
  | .cons t ts => by
    show 1 ≤ 1 + TNode.dfuel t + TForest.cfuel ts
    omega

/-- The statement of the child-iteration lemma for an encoded forest:
iterating from the base offset of a forest region (terminated by a null
record) yields exactly the forest roots in order, records the terminator
of the owner, and preserves the reachability invariants; keys of the
terminator map outside the region and distinct from the owner are
untouched. -/
def forestRun (tu : TypeUnit) (b : Bool) (nx : List (Nat × Nat))
    (ts : TForest) : Prop :=
  ∀ (a : Nat) (die : DIE) (st : TUState) (acc : List DIE) (fuel : Nat),
    TForest.wfB ts = true →
    (∀ p ∈ encF b tu.tu_offset a ts, tu.stream p.1 = some p.2) →
    tu.stream (TForest.fend a ts) = some nullRec →
    tu.tu_offset ≤ a →
    CacheOK tu st → TermOK nx st →
    (∀ p ∈ TForest.fnexts a ts, p ∈ nx) →
    (die.offset, TForest.fend a ts + 1) ∈ nx →
    (∀ (o e1 e2 : Nat), (o, e1) ∈ nx → (o, e2) ∈ nx → e1 = e2) →
    TForest.cfuel ts ≤ fuel →
    ∃ st' cs,
      tu.iterChildrenAux die fuel a st acc = (st', .ok (acc.reverse ++ cs)) ∧
      cs.map DIE.offset = TForest.roots a ts ∧
      (∀ c ∈ cs, dieMatches tu c) ∧
      CacheOK tu st' ∧ TermOK nx st' ∧
      (∃ td, st'.termMap.lookup die.offset = some td ∧
        td.offset = TForest.fend a ts ∧ td.size = 1) ∧
      (∀ k, k ≠ die.offset → (k < a ∨ TForest.fend a ts ≤ k) →
        st'.termMap.lookup k = st.termMap.lookup k)

theorem forestRun_all (tu : TypeUnit) (b : Bool) (nx : List (Nat × Nat)) :
    ∀ ts : TForest, forestRun tu b nx ts
  | .nil => by
    intro a die st acc fuel hwf hsub hnull hbase hC hT hnx hdie huniq hfuel
    obtain ⟨f, rfl⟩ : ∃ f, fuel = f + 1 :=
      ⟨fuel - 1, by have := cfuel_pos TForest.nil; omega⟩
    have hnull' : tu.stream a = some nullRec := hnull
    obtain ⟨st1, child, hfetch, hoff, htag, hhc, hsz, hattrs, hC1, htm1, hpm1⟩ :=
      fetch_matches tu st a nullRec hC hnull'
    have htag' : child.tag = none := htag
    have hsz' : child.size = 1 := hsz
    have hnullc : child.is_null = true := by simp [DIE.is_null, htag']
    refine ⟨(st1.setParent child.offset die.offset).setTerminator die.offset child,
      [], ?_, rfl, by simp, hC1, ?_, ?_, ?_⟩
    · simp only [TypeUnit.iterChildrenAux, hfetch]
      simp [hnullc]
    · intro o td hl
      by_cases ho : o = die.offset
      · subst ho
        rw [setTerminator_termMap, lookup_cons_self] at hl
        have htd : child = td := by simpa using hl
        subst htd
        rw [hoff, hsz']
        exact hdie
      · rw [setTerminator_termMap, lookup_cons_ne _ _ ho, setParent_termMap,
          htm1] at hl
        exact hT o td hl
    · refine ⟨child, ?_, hoff, hsz'⟩
      rw [setTerminator_termMap, lookup_cons_self]
    · intro k hk hr
      rw [setTerminator_termMap, lookup_cons_ne _ _ hk, setParent_termMap, htm1]
  | .cons (.leaf sz) ts => by
    intro a die st acc fuel hwf hsub hnull hbase hC hT hnx hdie huniq hfuel
    obtain ⟨hwt, hwts⟩ := wfB_cons hwf
    have hsz1 : 1 ≤ sz := by simpa [TNode.wfB] using hwt
    obtain ⟨f, rfl⟩ : ∃ f, fuel = f + 1 := ⟨fuel - 1, by
      have : 1 + TNode.dfuel (.leaf sz) + TForest.cfuel ts ≤ fuel := hfuel
      omega⟩
    have hfle : TForest.cfuel ts ≤ f := by
      have hx : 1 + TNode.dfuel (.leaf sz) + TForest.cfuel ts ≤ f + 1 := hfuel
      simp [TNode.dfuel] at hx
      omega
    have hstream : tu.stream a = some (leafRec sz) := by
      apply hsub (a, leafRec sz)
      simp [encF, encN]
    obtain ⟨st1, child, hfetch, hoff, htag, hhc, hszc, hattrs, hC1, htm1, hpm1⟩ :=
      fetch_matches tu st a (leafRec sz) hC hstream
    have htag' : child.tag = some "DW_TAG_base_type" := htag
    have hhc' : child.has_children = false := hhc
    have hszc' : child.size = sz := hszc
    have hnullc : child.is_null = false := by simp [DIE.is_null, htag']
    have hsub' : ∀ p ∈ encF b tu.tu_offset (TNode.nend a (.leaf sz)) ts,
        tu.stream p.1 = some p.2 := by
      intro p hp
      apply hsub p
      show p ∈ encN b tu.tu_offset a (.leaf sz)
          ++ encF b tu.tu_offset (TNode.nend a (.leaf sz)) ts
      exact List.mem_append_right _ hp
    have hnull' : tu.stream (TForest.fend (TNode.nend a (.leaf sz)) ts)
        = some nullRec := hnull
    have hbase' : tu.tu_offset ≤ TNode.nend a (.leaf sz) :=
      le_trans hbase (nend_ge _ a)
    have hC' : CacheOK tu (st1.setParent child.offset die.offset) := hC1
    have hT' : TermOK nx (st1.setParent child.offset die.offset) := by
      intro o td hl
      rw [setParent_termMap, htm1] at hl
      exact hT o td hl
    have hnx' : ∀ p ∈ TForest.fnexts (TNode.nend a (.leaf sz)) ts, p ∈ nx := by
      intro p hp
      apply hnx p
      show p ∈ TNode.nexts a (.leaf sz) ++ TForest.fnexts (TNode.nend a (.leaf sz)) ts
      exact List.mem_append_right _ hp
    have hdie' : (die.offset, TForest.fend (TNode.nend a (.leaf sz)) ts + 1) ∈ nx :=
      hdie
    obtain ⟨st', cs', heq', hroots', hmatch', hC'', hT'', hterm', hun'⟩ :=
      forestRun_all tu b nx ts (TNode.nend a (.leaf sz)) die
        (st1.setParent child.offset die.offset) (child :: acc) f
        hwts hsub' hnull' hbase' hC' hT' hnx' hdie' huniq hfle
    refine ⟨st', child :: cs', ?_, ?_, ?_, hC'', hT'', hterm', ?_⟩
    · simp only [TypeUnit.iterChildrenAux, hfetch]
      simp only [hnullc, hhc', Bool.false_eq_true, if_false, Bool.not_false,
        if_true]
      have hcur : a + child.size = TNode.nend a (.leaf sz) := by
        rw [hszc']
        rfl
      rw [hcur, heq']
      simp
    · show (child :: cs').map DIE.offset = TForest.roots a (.cons (.leaf sz) ts)
      simp only [List.map_cons, hoff, hroots']
      rfl
    · intro c hc
      rcases List.mem_cons.mp hc with h | h
      · subst h
        unfold dieMatches
        rw [hoff, htag', hhc', hszc', hattrs]
        exact hstream
      · exact hmatch' c h
    · intro k hk hr
      have hrange : k < TNode.nend a (.leaf sz) ∨
          TForest.fend (TNode.nend a (.leaf sz)) ts ≤ k := by
        rcases hr with h | h
        · left
          have := nend_ge (TNode.leaf sz) a
          omega
        · right
          exact h
      rw [hun' k hk hrange, setParent_termMap, htm1]
  | .cons (.node sz kids) ts => by
    intro a die st acc fuel hwf hsub hnull hbase hC hT hnx hdie huniq hfuel
    obtain ⟨hwt, hwts⟩ := wfB_cons hwf
    obtain ⟨hsz1, hwk⟩ := wfB_node hwt
    obtain ⟨f, rfl⟩ : ∃ f, fuel = f + 1 := ⟨fuel - 1, by
      have : 1 + TNode.dfuel (.node sz kids) + TForest.cfuel ts ≤ fuel := hfuel
      omega⟩
    have hfle : TForest.cfuel ts ≤ f := by
      have hx : 1 + TNode.dfuel (.node sz kids) + TForest.cfuel ts ≤ f + 1 := hfuel
      omega
    have hfkids : TForest.cfuel kids ≤ f := by
      have hx : 1 + TNode.dfuel (.node sz kids) + TForest.cfuel ts ≤ f + 1 := hfuel
      have hd : TNode.dfuel (.node sz kids) = TForest.cfuel kids := rfl
      omega
    have hfe : a + sz ≤ TForest.fend (a + sz) kids := fend_ge kids (a + sz)
    have hstream : tu.stream a = some (nodeRec b tu.tu_offset a sz kids) := by
      apply hsub (a, nodeRec b tu.tu_offset a sz kids)
      show _ ∈ encN b tu.tu_offset a (.node sz kids)
          ++ encF b tu.tu_offset (TNode.nend a (.node sz kids)) ts
      apply List.mem_append_left
      simp [encN]
    obtain ⟨st1, child, hfetch, hoff, htag, hhc, hszc, hattrs, hC1, htm1, hpm1⟩ :=
      fetch_matches tu st a (nodeRec b tu.tu_offset a sz kids) hC hstream
    have htag' : child.tag = some "DW_TAG_structure_type" := htag
    have hhc' : child.has_children = true := hhc
    have hszc' : child.size = sz := hszc
    have hnullc : child.is_null = false := by simp [DIE.is_null, htag']
    have hattrs' : child.attributes =
        (if b then [("DW_AT_sibling",
          (⟨"DW_FORM_ref4", TForest.fend (a + sz) kids + 1 - tu.tu_offset⟩ :
            AttrValue))] else []) := hattrs
    have hnextmem : (a, TForest.fend (a + sz) kids + 1) ∈ nx := by
      apply hnx
      show _ ∈ TNode.nexts a (.node sz kids)
          ++ TForest.fnexts (TNode.nend a (.node sz kids)) ts
      apply List.mem_append_left
      simp [TNode.nexts]
    -- hypotheses for the tail of the forest, used by every advance path
    have hsub' : ∀ p ∈ encF b tu.tu_offset (TNode.nend a (.node sz kids)) ts,
        tu.stream p.1 = some p.2 := by
      intro p hp
      apply hsub p
      show p ∈ encN b tu.tu_offset a (.node sz kids)
          ++ encF b tu.tu_offset (TNode.nend a (.node sz kids)) ts
      exact List.mem_append_right _ hp
    have hnull' : tu.stream (TForest.fend (TNode.nend a (.node sz kids)) ts)
        = some nullRec := hnull
    have hbase' : tu.tu_offset ≤ TNode.nend a (.node sz kids) :=
      le_trans hbase (nend_ge _ a)
    have hnx' : ∀ p ∈ TForest.fnexts (TNode.nend a (.node sz kids)) ts,
        p ∈ nx := by
      intro p hp
      apply hnx p
      show p ∈ TNode.nexts a (.node sz kids)
          ++ TForest.fnexts (TNode.nend a (.node sz kids)) ts
      exact List.mem_append_right _ hp
    have hdie' : (die.offset, TForest.fend (TNode.nend a (.node sz kids)) ts + 1)
        ∈ nx := hdie
    cases b with
    | true =>
      -- the shortcut path: the sibling attribute moves the cursor to the
      -- next-sibling offset directly
      have hT' : TermOK nx (st1.setParent child.offset die.offset) := by
        intro o td hl
        rw [setParent_termMap, htm1] at hl
        exact hT o td hl
      obtain ⟨st', cs', heq', hroots', hmatch', hC'', hT'', hterm', hun'⟩ :=
        forestRun_all tu true nx ts (TNode.nend a (.node sz kids)) die
          (st1.setParent child.offset die.offset) (child :: acc) f
          hwts hsub' hnull' hbase' hC1 hT' hnx' hdie' huniq hfle
      refine ⟨st', child :: cs', ?_, ?_, ?_, hC'', hT'', hterm', ?_⟩
      · simp only [TypeUnit.iterChildrenAux, hfetch]
        simp only [hnullc, hhc', Bool.false_eq_true, if_false, Bool.not_true,
          if_true, hattrs', if_true]
        have hlk : (([("DW_AT_sibling",
            (⟨"DW_FORM_ref4", TForest.fend (a + sz) kids + 1 - tu.tu_offset⟩ :
              AttrValue))] : List (String × AttrValue)).lookup "DW_AT_sibling")
            = some ⟨"DW_FORM_ref4",
                TForest.fend (a + sz) kids + 1 - tu.tu_offset⟩ := by
          simp [List.lookup]
        rw [hlk]
        have hmem : ("DW_FORM_ref4" : String) ∈ sibRefForms := by decide
        have hcur : TForest.fend (a + sz) kids + 1 - tu.tu_offset + tu.tu_offset
            = TNode.nend a (.node sz kids) := by
          show _ = TForest.fend (a + sz) kids + 1
          have : tu.tu_offset ≤ a := hbase
          omega
        simp only [hmem, if_true]
        rw [hcur, heq']
        simp
      · show (child :: cs').map DIE.offset
            = TForest.roots a (.cons (.node sz kids) ts)
        simp only [List.map_cons, hoff, hroots']
        rfl
      · intro c hc
        rcases List.mem_cons.mp hc with h | h
        · subst h
          unfold dieMatches
          rw [hoff, htag', hhc', hszc', hattrs']
          exact hstream
        · exact hmatch' c h
      · intro k hk hr
        have hrange : k < TNode.nend a (.node sz kids) ∨
            TForest.fend (TNode.nend a (.node sz kids)) ts ≤ k := by
          rcases hr with h | h
          · left
            have := nend_ge (TNode.node sz kids) a
            omega
          · right
            exact h
        rw [hun' k hk hrange, setParent_termMap, htm1]
    | false =>
      -- the fallback path: no sibling attribute is present
      have hlknone : child.attributes.lookup "DW_AT_sibling" = none := by
        rw [hattrs']
        rfl
      cases hlt : st.termMap.lookup child.offset with
      | some td0 =>
        -- the terminator of the child is already cached
        have hx := hT child.offset td0 hlt
        rw [hoff] at hx
        have heqn : td0.offset + td0.size = TForest.fend (a + sz) kids + 1 :=
          huniq a _ _ hx hnextmem
        have hT' : TermOK nx (st1.setParent child.offset die.offset) := by
          intro o td hl
          rw [setParent_termMap, htm1] at hl
          exact hT o td hl
        obtain ⟨st', cs', heq', hroots', hmatch', hC'', hT'', hterm', hun'⟩ :=
          forestRun_all tu false nx ts (TNode.nend a (.node sz kids)) die
            (st1.setParent child.offset die.offset) (child :: acc) f
            hwts hsub' hnull' hbase' hC1 hT' hnx' hdie' huniq hfle
        refine ⟨st', child :: cs', ?_, ?_, ?_, hC'', hT'', hterm', ?_⟩
        · simp only [TypeUnit.iterChildrenAux, hfetch]
          simp only [hnullc, hhc', Bool.false_eq_true, if_false, Bool.not_true,
            if_true, hlknone]
          have hlt' : (st1.setParent child.offset die.offset).termMap.lookup
              child.offset = some td0 := by
            rw [setParent_termMap, htm1]
            exact hlt
          simp only [hlt']
          have hcur : td0.offset + td0.size = TNode.nend a (.node sz kids) := heqn
          rw [hcur, heq']
          simp
        · show (child :: cs').map DIE.offset
              = TForest.roots a (.cons (.node sz kids) ts)
          simp only [List.map_cons, hoff, hroots']
          rfl
        · intro c hc
          rcases List.mem_cons.mp hc with h | h
          · subst h
            unfold dieMatches
            rw [hoff, htag', hhc', hszc', hattrs']
            exact hstream
          · exact hmatch' c h
        · intro k hk hr
          have hrange : k < TNode.nend a (.node sz kids) ∨
              TForest.fend (TNode.nend a (.node sz kids)) ts ≤ k := by
            rcases hr with h | h
            · left
              have := nend_ge (TNode.node sz kids) a
              omega
            · right
              exact h
          rw [hun' k hk hrange, setParent_termMap, htm1]
      | none =>
        -- drain the subtree of the child to discover its terminator
        have hsubk : ∀ p ∈ encF false tu.tu_offset (a + sz) kids,
            tu.stream p.1 = some p.2 := by
          intro p hp
          apply hsub p
          show p ∈ encN false tu.tu_offset a (.node sz kids)
              ++ encF false tu.tu_offset (TNode.nend a (.node sz kids)) ts
          apply List.mem_append_left
          show p ∈ (a, nodeRec false tu.tu_offset a sz kids)
              :: (encF false tu.tu_offset (a + sz) kids
                  ++ [(TForest.fend (a + sz) kids, nullRec)])
          exact List.mem_cons_of_mem _ (List.mem_append_left _ hp)
        have hnullk : tu.stream (TForest.fend (a + sz) kids) = some nullRec := by
          apply hsub (TForest.fend (a + sz) kids, nullRec)
          show _ ∈ encN false tu.tu_offset a (.node sz kids)
              ++ encF false tu.tu_offset (TNode.nend a (.node sz kids)) ts
          apply List.mem_append_left
          show _ ∈ (a, nodeRec false tu.tu_offset a sz kids)
              :: (encF false tu.tu_offset (a + sz) kids
                  ++ [(TForest.fend (a + sz) kids, nullRec)])
          exact List.mem_cons_of_mem _ (List.mem_append_right _ (by simp))
        have hbasek : tu.tu_offset ≤ a + sz := by omega
        have hnxk : ∀ p ∈ TForest.fnexts (a + sz) kids, p ∈ nx := by
          intro p hp
          apply hnx p
          show p ∈ TNode.nexts a (.node sz kids)
              ++ TForest.fnexts (TNode.nend a (.node sz kids)) ts
          apply List.mem_append_left
          show p ∈ (a, TForest.fend (a + sz) kids + 1)
              :: TForest.fnexts (a + sz) kids
          exact List.mem_cons_of_mem _ hp
        have hdiek : (child.offset, TForest.fend (a + sz) kids + 1) ∈ nx := by
          rw [hoff]
          exact hnextmem
        have hT1 : TermOK nx (st1.setParent child.offset die.offset) := by
          intro o td hl
          rw [setParent_termMap, htm1] at hl
          exact hT o td hl
        obtain ⟨st3, cs3, heq3, hroots3, hmatch3, hC3, hT3, hterm3, hun3⟩ :=
          forestRun_all tu false nx kids (a + sz) child
            (st1.setParent child.offset die.offset) [] f
            hwk hsubk hnullk hbasek hC1 hT1 hnxk hdiek huniq hfkids
        obtain ⟨td, htd3, htdo, htds⟩ := hterm3
        have hcs : child.offset + child.size = a + sz := by rw [hoff, hszc']
        have heq3' : tu.iterChildrenAux child f (child.offset + child.size)
            (st1.setParent child.offset die.offset) [] = (st3, .ok cs3) := by
          rw [hcs]
          simpa using heq3
        -- continue with the tail of the forest from the drained state
        have hC3' : CacheOK tu st3 := hC3
        obtain ⟨st', cs', heq', hroots', hmatch', hC'', hT'', hterm', hun'⟩ :=
          forestRun_all tu false nx ts (TNode.nend a (.node sz kids)) die
            st3 (child :: acc) f
            hwts hsub' hnull' hbase' hC3' hT3 hnx' hdie' huniq hfle
        refine ⟨st', child :: cs', ?_, ?_, ?_, hC'', hT'', hterm', ?_⟩
        · simp only [TypeUnit.iterChildrenAux, hfetch]
          simp only [hnullc, hhc', Bool.false_eq_true, if_false, Bool.not_true,
            if_true, hlknone]
          have hltnone : (st1.setParent child.offset die.offset).termMap.lookup
              child.offset = none := by
            rw [setParent_termMap, htm1]
            exact hlt
          simp only [hltnone]
          simp only [heq3']
          simp only [htd3]
          have hcur : td.offset + td.size = TNode.nend a (.node sz kids) := by
            rw [htdo, htds]
            rfl
          rw [hcur, heq']
          simp
        · show (child :: cs').map DIE.offset
              = TForest.roots a (.cons (.node sz kids) ts)
          simp only [List.map_cons, hoff, hroots']
          rfl
        · intro c hc
          rcases List.mem_cons.mp hc with h | h
          · subst h
            unfold dieMatches
            rw [hoff, htag', hhc', hszc', hattrs']
            exact hstream
          · exact hmatch' c h
        · intro k hk hr
          have hne1 : TNode.nend a (.node sz kids)
              ≤ TForest.fend a (.cons (.node sz kids) ts) :=
            fend_ge ts (TNode.nend a (.node sz kids))
          have hrange : k < TNode.nend a (.node sz kids) ∨
              TForest.fend (TNode.nend a (.node sz kids)) ts ≤ k := by
            rcases hr with h | h
            · left
              have := nend_ge (TNode.node sz kids) a
              omega
            · right
              exact h
          rw [hun' k hk hrange]
          have hka : k ≠ child.offset := by
            rw [hoff]
            rcases hr with h | h
            · omega
            · show k ≠ a
              have hlt2 : a < TNode.nend a (.node sz kids) :=
                nend_gt _ a hwt
              omega
          have hrangek : k < a + sz ∨ TForest.fend (a + sz) kids ≤ k := by
            rcases hr with h | h
            · left
              omega
            · right
              have hx : TForest.fend (TNode.nend a (.node sz kids)) ts ≤ k := h
              have hy : TForest.fend (a + sz) kids
                  < TNode.nend a (.node sz kids) := by
                show TForest.fend (a + sz) kids < TForest.fend (a + sz) kids + 1
                omega
              have hz : TNode.nend a (.node sz kids)
                  ≤ TForest.fend (TNode.nend a (.node sz kids)) ts :=
                fend_ge ts _
              omega
          rw [hun3 k hka hrangek, setParent_termMap, htm1]

/-- The parse record of the root of a tree laid out at `off`. -/
def TNode.rec0 (b : Bool) (u off : Nat) : TNode → DieInfo
  | .leaf sz => leafRec sz
  | .node sz kids => nodeRec b u off sz kids

theorem rec0_mem : ∀ (t : TNode) (b : Bool) (u off : Nat),
    (off, TNode.rec0 b u off t) ∈ encN b u off t
  | .leaf sz, b, u, off => by simp [encN, TNode.rec0]
  | .node sz kids, b, u, off => by simp [encN, TNode.rec0]

/-- The statement of the subtree-walk lemma for one encoded tree. -/
def nodeSub (tu : TypeUnit) (b : Bool) (nx : List (Nat × Nat)) (t : TNode) : Prop :=
  ∀ (off : Nat) (die : DIE) (st : TUState) (fuel : Nat),
    TNode.wfB t = true →
    (∀ p ∈ encN b tu.tu_offset off t, tu.stream p.1 = some p.2) →
    tu.tu_offset ≤ off →
    die.offset = off →
    dieMatches tu die →
    tu.supplementary_dwarfinfo = false →
    CacheOK tu st → TermOK nx st →
    (∀ p ∈ TNode.nexts off t, p ∈ nx) →
    (∀ (o e1 e2 : Nat), (o, e1) ∈ nx → (o, e2) ∈ nx → e1 = e2) →
    TNode.sfuel t ≤ fuel →
    ∃ st' out,
      tu._iter_DIE_subtree fuel die st = (st', .ok out) ∧
      out.map DIE.offset = TNode.trace off t ∧
      CacheOK tu st' ∧ TermOK nx st' ∧
      (∀ k, (k < off ∨ TNode.nend off t ≤ k) →
        st'.termMap.lookup k = st.termMap.lookup k)

/-- The statement of the subtree-walk lemma for the children of an
encoded forest. -/
def forestSub (tu : TypeUnit) (b : Bool) (nx : List (Nat × Nat))
    (ts : TForest) : Prop :=
  ∀ (a : Nat) (cs : List DIE) (st : TUState) (fuel : Nat),
    TForest.wfB ts = true →
    (∀ p ∈ encF b tu.tu_offset a ts, tu.stream p.1 = some p.2) →
    tu.tu_offset ≤ a →
    cs.map DIE.offset = TForest.roots a ts →
    (∀ c ∈ cs, dieMatches tu c) →
    tu.supplementary_dwarfinfo = false →
    CacheOK tu st → TermOK nx st →
    (∀ p ∈ TForest.fnexts a ts, p ∈ nx) →
    (∀ (o e1 e2 : Nat), (o, e1) ∈ nx → (o, e2) ∈ nx → e1 = e2) →
    TForest.sfuelF ts ≤ fuel →
    ∃ st' out,
      runForest (fun c s => tu._iter_DIE_subtree fuel c s) cs st
        = (st', .ok out) ∧
      out.map DIE.offset = TForest.ftrace a ts ∧
      CacheOK tu st' ∧ TermOK nx st' ∧
      (∀ k, (k < a ∨ TForest.fend a ts ≤ k) →
        st'.termMap.lookup k = st.termMap.lookup k)

mutual
theorem nodeSub_all (tu : TypeUnit) (b : Bool) (nx : List (Nat × Nat)) :
    ∀ t : TNode, nodeSub tu b nx t
  | .leaf sz => by
    intro off die st fuel hwf hsub hbase hoffeq hmatch hsupp hC hT hnx huniq hfuel
    obtain ⟨f, rfl⟩ : ∃ f, fuel = f + 1 := ⟨fuel - 1, by
      have : TNode.sfuel (.leaf sz) ≤ fuel := hfuel
      simp [TNode.sfuel] at this
      omega⟩
    have hstream : tu.stream off = some (leafRec sz) := by
      apply hsub (off, leafRec sz)
      simp [encN]
    have hfields : (⟨die.tag, die.has_children, die.size, die.attributes⟩ :
        DieInfo) = leafRec sz := by
      have h2 := hmatch
      unfold dieMatches at h2
      rw [hoffeq, hstream] at h2
      simpa using h2.symm
    have hhcd : die.has_children = false := by
      have := congrArg DieInfo.has_children hfields
      simpa [leafRec] using this
    have htagd : die.tag = some "DW_TAG_base_type" := by
      have := congrArg DieInfo.tag hfields
      simpa [leafRec] using this
    refine ⟨st, [die], ?_, ?_, hC, hT, ?_⟩
    · simp only [TypeUnit._iter_DIE_subtree]
      have hcond : ¬(die.tag = some "DW_TAG_imported_unit" ∧
          tu.supplementary_dwarfinfo = true) := by
        intro hcond
        rw [hsupp] at hcond
        exact absurd hcond.2 (by simp)
      rw [if_neg hcond]
      simp [hhcd]
    · simp [TNode.trace, hoffeq]
    · intro k hk
      rfl
  | .node sz kids => by
    intro off die st fuel hwf hsub hbase hoffeq hmatch hsupp hC hT hnx huniq hfuel
    obtain ⟨hsz1, hwk⟩ := wfB_node hwf
    obtain ⟨f, rfl⟩ : ∃ f, fuel = f + 1 := ⟨fuel - 1, by
      have : TNode.sfuel (.node sz kids) ≤ fuel := hfuel
      simp [TNode.sfuel] at this
      omega⟩
    have hfk : TForest.cfuel kids ≤ f := by
      have hx : TNode.sfuel (.node sz kids) ≤ f + 1 := hfuel
      simp [TNode.sfuel] at hx
      omega
    have hfsk : TForest.sfuelF kids ≤ f := by
      have hx : TNode.sfuel (.node sz kids) ≤ f + 1 := hfuel
      simp [TNode.sfuel] at hx
      omega
    have hfe : off + sz ≤ TForest.fend (off + sz) kids := fend_ge kids (off + sz)
    have hstream : tu.stream off
        = some (nodeRec b tu.tu_offset off sz kids) := by
      apply hsub (off, nodeRec b tu.tu_offset off sz kids)
      simp [encN]
    have hfields : (⟨die.tag, die.has_children, die.size, die.attributes⟩ :
        DieInfo) = nodeRec b tu.tu_offset off sz kids := by
      have h2 := hmatch
      unfold dieMatches at h2
      rw [hoffeq, hstream] at h2
      simpa using h2.symm
    have hhcd : die.has_children = true := by
      have := congrArg DieInfo.has_children hfields
      simpa [nodeRec] using this
    have hszd : die.size = sz := by
      have := congrArg DieInfo.size hfields
      simpa [nodeRec] using this
    have htagd : die.tag = some "DW_TAG_structure_type" := by
      have := congrArg DieInfo.tag hfields
      simpa [nodeRec] using this
    have hsubk : ∀ p ∈ encF b tu.tu_offset (off + sz) kids,
        tu.stream p.1 = some p.2 := by
      intro p hp
      apply hsub p
      show p ∈ (off, nodeRec b tu.tu_offset off sz kids)
          :: (encF b tu.tu_offset (off + sz) kids
              ++ [(TForest.fend (off + sz) kids, nullRec)])
      exact List.mem_cons_of_mem _ (List.mem_append_left _ hp)
    have hnullk : tu.stream (TForest.fend (off + sz) kids) = some nullRec := by
      apply hsub (TForest.fend (off + sz) kids, nullRec)
      show _ ∈ (off, nodeRec b tu.tu_offset off sz kids)
          :: (encF b tu.tu_offset (off + sz) kids
              ++ [(TForest.fend (off + sz) kids, nullRec)])
      exact List.mem_cons_of_mem _ (List.mem_append_right _ (by simp))
    have hbasek : tu.tu_offset ≤ off + sz := by omega
    have hnxk : ∀ p ∈ TForest.fnexts (off + sz) kids, p ∈ nx := by
      intro p hp
      apply hnx p
      show p ∈ (off, TForest.fend (off + sz) kids + 1)
          :: TForest.fnexts (off + sz) kids
      exact List.mem_cons_of_mem _ hp
    have hdiek : (die.offset, TForest.fend (off + sz) kids + 1) ∈ nx := by
      rw [hoffeq]
      apply hnx
      show _ ∈ (off, TForest.fend (off + sz) kids + 1)
          :: TForest.fnexts (off + sz) kids
      exact List.mem_cons_self _ _
    obtain ⟨st1, cs, heq1, hroots1, hmatch1, hC1, hT1, hterm1, hun1⟩ :=
      forestRun_all tu b nx kids (off + sz) die st [] f
        hwk hsubk hnullk hbasek hC hT hnxk hdiek huniq hfk
    obtain ⟨td, htd1, htdo, htds⟩ := hterm1
    obtain ⟨st2, outF, heqF, htraceF, hC2, hT2, hun2⟩ :=
      forestSub_all tu b nx kids (off + sz) cs st1 f
        hwk hsubk hbasek hroots1 hmatch1 hsupp hC1 hT1 hnxk huniq hfsk
    have htd2 : st2.termMap.lookup die.offset = some td := by
      rw [hun2 die.offset (by rw [hoffeq]; left; omega)]
      exact htd1
    refine ⟨st2, die :: (outF ++ [td]), ?_, ?_, hC2, hT2, ?_⟩
    · simp only [TypeUnit._iter_DIE_subtree]
      have hcond : ¬(die.tag = some "DW_TAG_imported_unit" ∧
          tu.supplementary_dwarfinfo = true) := by
        intro hcond
        rw [hsupp] at hcond
        exact absurd hcond.2 (by simp)
      rw [if_neg hcond]
      simp only [hhcd, if_true]
      have hch : tu.iter_DIE_children die st f = (st1, .ok cs) := by
        unfold TypeUnit.iter_DIE_children
        rw [if_pos hhcd]
        have hcs : die.offset + die.size = off + sz := by rw [hoffeq, hszd]
        rw [hcs]
        simpa using heq1
      rw [hch]
      simp only [heqF]
      simp only [htd2]
    · show (die :: (outF ++ [td])).map DIE.offset = TNode.trace off (.node sz kids)
      simp only [List.map_cons, List.map_append, List.map_cons, List.map_nil,
        hoffeq, htraceF, htdo]
      rfl
    · intro k hk
      have hoffne : off < TNode.nend off (.node sz kids) := nend_gt _ off hwf
      have hr2 : k < off + sz ∨ TForest.fend (off + sz) kids ≤ k := by
        rcases hk with h | h
        · left
          omega
        · right
          have : TNode.nend off (.node sz kids)
              = TForest.fend (off + sz) kids + 1 := rfl
          omega
      rw [hun2 k hr2]
      have hkd : k ≠ die.offset := by
        rw [hoffeq]
        rcases hk with h | h
        · omega
        · have : TNode.nend off (.node sz kids)
              = TForest.fend (off + sz) kids + 1 := rfl
          omega
      rw [hun1 k hkd hr2]
theorem forestSub_all (tu : TypeUnit) (b : Bool) (nx : List (Nat × Nat)) :
    ∀ ts : TForest, forestSub tu b nx ts
  | .nil => by
    intro a cs st fuel hwf hsub hbase hroots hmatches hsupp hC hT hnx huniq hfuel
    have hcs : cs = [] := by
      have : cs.map DIE.offset = [] := hroots
      simpa using this
    subst hcs
    exact ⟨st, [], rfl, rfl, hC, hT, fun k hk => rfl⟩
  | .cons t ts => by
    intro a cs st fuel hwf hsub hbase hroots hmatches hsupp hC hT hnx huniq hfuel
    obtain ⟨hwt, hwts⟩ := wfB_cons hwf
    cases cs with
    | nil =>
      exfalso
      have : ([] : List DIE).map DIE.offset = TForest.roots a (.cons t ts) :=
        hroots
      simp [TForest.roots] at this
    | cons c cs₂ =>
      have hroots' : c.offset :: cs₂.map DIE.offset
          = a :: TForest.roots (TNode.nend a t) ts := hroots
      have hc1 : c.offset = a := by
        have := congrArg List.head? hroots'
        simpa using this
      have hc2 : cs₂.map DIE.offset = TForest.roots (TNode.nend a t) ts := by
        have := congrArg List.tail hroots'
        simpa using this
      have hsubt : ∀ p ∈ encN b tu.tu_offset a t, tu.stream p.1 = some p.2 := by
        intro p hp
        apply hsub p
        show p ∈ encN b tu.tu_offset a t
            ++ encF b tu.tu_offset (TNode.nend a t) ts
        exact List.mem_append_left _ hp
      have hnxt : ∀ p ∈ TNode.nexts a t, p ∈ nx := by
        intro p hp
        apply hnx p
        show p ∈ TNode.nexts a t ++ TForest.fnexts (TNode.nend a t) ts
        exact List.mem_append_left _ hp
      have hsf1 : TNode.sfuel t ≤ fuel := by
        have hx : TForest.sfuelF (.cons t ts) ≤ fuel := hfuel
        simp [TForest.sfuelF] at hx
        omega
      obtain ⟨s1, out1, heq1, htr1, hC1, hT1, hun1⟩ :=
        nodeSub_all tu b nx t a c st fuel
          hwt hsubt hbase hc1 (hmatches c (List.mem_cons_self c cs₂)) hsupp
          hC hT hnxt huniq hsf1
      have hsubts : ∀ p ∈ encF b tu.tu_offset (TNode.nend a t) ts,
          tu.stream p.1 = some p.2 := by
        intro p hp
        apply hsub p
        show p ∈ encN b tu.tu_offset a t
            ++ encF b tu.tu_offset (TNode.nend a t) ts
        exact List.mem_append_right _ hp
      have hnxts : ∀ p ∈ TForest.fnexts (TNode.nend a t) ts, p ∈ nx := by
        intro p hp
        apply hnx p
        show p ∈ TNode.nexts a t ++ TForest.fnexts (TNode.nend a t) ts
        exact List.mem_append_right _ hp
      have hsf2 : TForest.sfuelF ts ≤ fuel := by
        have hx : TForest.sfuelF (.cons t ts) ≤ fuel := hfuel
        simp [TForest.sfuelF] at hx
        omega
      obtain ⟨s2, out2, heq2, htr2, hC2, hT2, hun2⟩ :=
        forestSub_all tu b nx ts (TNode.nend a t) cs₂ s1 fuel
          hwts hsubts (le_trans hbase (nend_ge t a)) hc2
          (fun c₂ hc₂ => hmatches c₂ (List.mem_cons_of_mem _ hc₂)) hsupp
          hC1 hT1 hnxts huniq hsf2
      refine ⟨s2, out1 ++ out2, ?_, ?_, hC2, hT2, ?_⟩
      · simp only [runForest]
        simp only [heq1]
        simp only [heq2]
      · show (out1 ++ out2).map DIE.offset = TForest.ftrace a (.cons t ts)
        simp only [List.map_append, htr1, htr2]
        rfl
      · intro k hk
        have hna : a ≤ TNode.nend a t := nend_ge t a
        have hnf : TNode.nend a t ≤ TForest.fend (TNode.nend a t) ts :=
          fend_ge ts _
        have hr2 : k < TNode.nend a t ∨
            TForest.fend (TNode.nend a t) ts ≤ k := by
          rcases hk with h | h
          · left
            omega
          · right
            have : TForest.fend a (.cons t ts)
                = TForest.fend (TNode.nend a t) ts := rfl
            omega
        have hr1 : k < a ∨ TNode.nend a t ≤ k := by
          rcases hk with h | h
          · left
            exact h
          · right
            have : TForest.fend a (.cons t ts)
                = TForest.fend (TNode.nend a t) ts := rfl
            omega
        rw [hun2 k hr2, hun1 k hr1]
end

mutual
theorem nexts_sib_node : ∀ (t : TNode) (u off : Nat), TNode.wfB t = true →
    u ≤ off → ∀ p ∈ TNode.nexts off t,
    ∃ r, (p.1, r) ∈ encN true u off t ∧
      (r.attributes.lookup "DW_AT_sibling").map (fun s => s.value + u)
        = some p.2
  | .leaf sz, u, off, hwf, hu, p, hp => by cases hp
  | .node sz kids, u, off, hwf, hu, p, hp => by
    obtain ⟨hsz1, hwk⟩ := wfB_node hwf
    have hfe : off + sz ≤ TForest.fend (off + sz) kids := fend_ge kids (off + sz)
    simp only [TNode.nexts, List.mem_cons] at hp
    rcases hp with hp | hp
    · subst hp
      refine ⟨nodeRec true u off sz kids, by simp [encN], ?_⟩
      show ((nodeRec true u off sz kids).attributes.lookup
          "DW_AT_sibling").map (fun s => s.value + u)
          = some (TForest.fend (off + sz) kids + 1)
      have hl : (nodeRec true u off sz kids).attributes.lookup "DW_AT_sibling"
          = some ⟨"DW_FORM_ref4", TForest.fend (off + sz) kids + 1 - u⟩ := by
        simp [nodeRec, List.lookup]
      rw [hl]
      simp
      omega
    · obtain ⟨r, hmem, hval⟩ := nexts_sib_forest kids u (off + sz) hwk
        (by omega) p hp
      refine ⟨r, ?_, hval⟩
      show (p.1, r) ∈ (off, nodeRec true u off sz kids)
          :: (encF true u (off + sz) kids
              ++ [(TForest.fend (off + sz) kids, nullRec)])
      exact List.mem_cons_of_mem _ (List.mem_append_left _ hmem)
theorem nexts_sib_forest : ∀ (ts : TForest) (u a : Nat), TForest.wfB ts = true →
    u ≤ a → ∀ p ∈ TForest.fnexts a ts,
    ∃ r, (p.1, r) ∈ encF true u a ts ∧
      (r.attributes.lookup "DW_AT_sibling").map (fun s => s.value + u)
        = some p.2
  | .nil, u, a, hwf, hu, p, hp => by cases hp
  | .cons t ts, u, a, hwf, hu, p, hp => by
    obtain ⟨hwt, hwts⟩ := wfB_cons hwf
    simp only [TForest.fnexts, List.mem_append] at hp
    rcases hp with hp | hp
    · obtain ⟨r, hmem, hval⟩ := nexts_sib_node t u a hwt hu p hp
      refine ⟨r, ?_, hval⟩
      show (p.1, r) ∈ encN true u a t ++ encF true u (TNode.nend a t) ts
      exact List.mem_append_left _ hmem
    · obtain ⟨r, hmem, hval⟩ := nexts_sib_forest ts u (TNode.nend a t) hwts
        (le_trans hu (nend_ge t a)) p hp
      refine ⟨r, ?_, hval⟩
      show (p.1, r) ∈ encN true u a t ++ encF true u (TNode.nend a t) ts
      exact List.mem_append_right _ hmem
end

/-- C5: on every well-formed tree, the full enumeration over the
encoding with sibling shortcuts and the one over the encoding without
them both succeed with the identical offset sequence (the canonical
pre-order trace with terminators).  Moreover the shortcut target stored
by the encoding (sibling value plus the unit base offset) is exactly the
next-sibling offset, and in the shortcut-free run every terminator
recorded by the fallback recursive scan induces exactly that same
next-sibling offset (terminator offset plus terminator size), so the two
strategies compute the same cursors. -/
theorem claim_C5 (t : TNode) (u d0 fuel : Nat)
    (hwf : TNode.wfB t = true) (hu : u ≤ d0) (hfuel : TNode.sfuel t ≤ fuel) :
    ∃ out1 out2,
      okList ((encTU true u d0 t).iter_DIEs TUState.initState fuel)
        = some out1 ∧
      okList ((encTU false u d0 t).iter_DIEs TUState.initState fuel)
        = some out2 ∧
      out1.map DIE.offset = TNode.trace d0 t ∧
      out2.map DIE.offset = TNode.trace d0 t ∧
      out1.map DIE.offset = out2.map DIE.offset ∧
      (∀ p ∈ TNode.nexts d0 t, ∀ r,
        (encTU true u d0 t).stream p.1 = some r →
        (r.attributes.lookup "DW_AT_sibling").map (fun s => s.value + u)
          = some p.2) ∧
      (∀ o td,
        ((encTU false u d0 t).iter_DIEs TUState.initState fuel).1.termMap.lookup o
          = some td →
        (o, td.offset + td.size) ∈ TNode.nexts d0 t) := by
  have huniq : ∀ (o e1 e2 : Nat), (o, e1) ∈ TNode.nexts d0 t →
      (o, e2) ∈ TNode.nexts d0 t → e1 = e2 :=
    fun o e1 e2 h1 h2 => pairwise_key_fun (nexts_pairwise t d0 hwf) h1 h2
  have hrun : ∀ b : Bool, ∃ st' out,
      (encTU b u d0 t).iter_DIEs TUState.initState fuel = (st', .ok out) ∧
      out.map DIE.offset = TNode.trace d0 t ∧
      TermOK (TNode.nexts d0 t) st' := by
    intro b
    have hpw := encN_pairwise t b u d0 hwf
    have hsubst : ∀ p ∈ encN b u d0 t,
        (encTU b u d0 t).stream p.1 = some p.2 := by
      intro p hp
      obtain ⟨pk, pv⟩ := p
      exact lookup_of_mem_pairwise hpw hp
    have hstream0 : (encTU b u d0 t).stream d0
        = some (TNode.rec0 b u d0 t) :=
      hsubst _ (rec0_mem t b u d0)
    have htop := get_top_cold (encTU b u d0 t) TUState.initState
      (TNode.rec0 b u d0 t) rfl hstream0
    have hC1 : CacheOK (encTU b u d0 t)
        { TUState.initState with
          dielist := [mkDIE (TNode.rec0 b u d0 t) 0 d0],
          diemap := [d0], nextId := 1 } := by
      refine ⟨⟨by simp [mkDIE], by simp⟩, by simp, ?_⟩
      intro d hd
      simp at hd
      subst hd
      exact hstream0
    have hT1 : TermOK (TNode.nexts d0 t)
        { TUState.initState with
          dielist := [mkDIE (TNode.rec0 b u d0 t) 0 d0],
          diemap := [d0], nextId := 1 } := by
      intro o td h
      simp [TUState.initState, List.lookup] at h
    have hdm : dieMatches (encTU b u d0 t)
        (mkDIE (TNode.rec0 b u d0 t) 0 d0) := hstream0
    obtain ⟨st', out, heq, htr, hC', hT', hun⟩ :=
      nodeSub_all (encTU b u d0 t) b (TNode.nexts d0 t) t d0
        (mkDIE (TNode.rec0 b u d0 t) 0 d0)
        { TUState.initState with
          dielist := [mkDIE (TNode.rec0 b u d0 t) 0 d0],
          diemap := [d0], nextId := 1 } fuel
        hwf hsubst hu rfl hdm rfl hC1 hT1 (fun p hp => hp) huniq hfuel
    refine ⟨st', out, ?_, htr, hT'⟩
    unfold TypeUnit.iter_DIEs
    rw [htop]
    exact heq
  obtain ⟨s1, out1, heq1, htr1, hT1⟩ := hrun true
  obtain ⟨s2, out2, heq2, htr2, hT2⟩ := hrun false
  refine ⟨out1, out2, ?_, ?_, htr1, htr2, by rw [htr1, htr2], ?_, ?_⟩
  · unfold okList
    rw [heq1]
  · unfold okList
    rw [heq2]
  · intro p hp r hr
    obtain ⟨r', hmem', hval'⟩ := nexts_sib_node t u d0 hwf hu p hp
    have hlk : (encTU true u d0 t).stream p.1 = some r' :=
      lookup_of_mem_pairwise (encN_pairwise t true u d0 hwf) hmem'
    rw [hr] at hlk
    have : r = r' := by simpa using hlk
    rw [this]
    exact hval'
  · intro o td h
    rw [heq2] at h
    exact hT2 o td h

/-- A sample well-formed tree: a root of size 2 with an internal child
(size 3, one leaf grandchild of size 1) followed by a leaf child of
size 2. -/
def tC5 : TNode :=
  .node 2 (.cons (.node 3 (.cons (.leaf 1) .nil)) (.cons (.leaf 2) .nil))

theorem claim_C5_witness :
    (TNode.wfB tC5 = true ∧ 1 ≤ 5 ∧ TNode.sfuel tC5 ≤ 30) ∧
    (∃ out1 out2,
      okList ((encTU true 1 5 tC5).iter_DIEs TUState.initState 30)
        = some out1 ∧
      okList ((encTU false 1 5 tC5).iter_DIEs TUState.initState 30)
        = some out2 ∧
      out1.map DIE.offset = TNode.trace 5 tC5 ∧
      out2.map DIE.offset = TNode.trace 5 tC5 ∧
      out1.map DIE.offset = out2.map DIE.offset ∧
      (∀ p ∈ TNode.nexts 5 tC5, ∀ r,
        (encTU true 1 5 tC5).stream p.1 = some r →
        (r.attributes.lookup "DW_AT_sibling").map (fun s => s.value + 1)
          = some p.2) ∧
      (∀ o td,
        ((encTU false 1 5 tC5).iter_DIEs TUState.initState 30).1.termMap.lookup o
          = some td →
        (o, td.offset + td.size) ∈ TNode.nexts 5 tC5)) :=
  ⟨⟨by decide, by decide, by decide⟩,
   claim_C5 tC5 1 5 30 (by decide) (by decide) (by decide)⟩
